import Mathlib

/-!
Shallow embedding of `pymorphy2/predictors.py` (the predictor chain of the
pymorphy2 morphological analyzer) and proofs about the claims of its
specification.

Conventions of the embedding:
* Python strings are modelled by `String`; the slicing operations used by the
  source (`word[-i:]`, `word[:-i]`, `word[len(p):]`, concatenation,
  `startswith`, `endswith`, `split('-', 1)`) are modelled code-point-wise on
  `String.data`, exactly as Python slices by code points.
* Python floats are modelled by `ℚ` (the source only multiplies, divides and
  compares confidence estimates; `from __future__ import division` makes `/`
  true division).
* The external collaborators (the dictionary, the recursive full analyzer
  `morph`, the `word_splits` utility and the shape predicates) are opaque
  records of functions, exactly the interface the source calls.
* A Python `set` threaded by reference (`seen_parses`, `seen_tags`) is
  modelled by a list of the already-seen keys; predictors that mutate it are
  modelled by the fold that threads the list through the insertions.
-/

namespace Pymorphy2

/-! ### String helpers (Python slicing by code points) -/

/-- Python `word[:n]`. -/
def strTake (s : String) (n : Nat) : String := ⟨s.data.take n⟩

/-- Python `word[n:]`. -/
def strDrop (s : String) (n : Nat) : String := ⟨s.data.drop n⟩

/-- Python `len(word)` (code points). -/
def strLen (s : String) : Nat := s.data.length

/-- Python `word[-i:]` for `i ≥ 1`: the trailing `i` code points. -/
def strTakeEnd (s : String) (i : Nat) : String := ⟨s.data.drop (s.data.length - i)⟩

/-- Python `word[:-i]` for `i ≥ 1`: the word without its trailing `i` code points. -/
def strDropEnd (s : String) (i : Nat) : String := ⟨s.data.take (s.data.length - i)⟩

/-- Python `word.startswith(p)`. -/
def strStartsWith (s p : String) : Bool := p.data.isPrefixOf s.data

/-- Python `word.endswith(p)`. -/
def strEndsWith (s p : String) : Bool := p.data.isSuffixOf s.data

/-- Python `'-' in word`. -/
def hasHyphen (s : String) : Bool := s.data.contains '-'

/-- Python `word.split('-', 1)` for a word containing a hyphen: the parts
before and after the first hyphen. -/
def hyphenSplit (s : String) : String × String :=
  (⟨s.data.takeWhile (· ≠ '-')⟩, ⟨(s.data.dropWhile (· ≠ '-')).drop 1⟩)

/-! ### Data model -/

/-- The grammatical tag, as the predictors use it: an equality-comparable
record exposing the productivity predicate `is_productive`, the five grammeme
categories compared by `HyphenatedWordsPredictor._similarity_features`, and an
opaque label (the rest of the grammeme content, also used as the tie-break key
of `KnownSuffixPredictor.tag`'s final sort). -/
structure Tag where
  POS : Option String
  number : Option String
  case_ : Option String
  person : Option String
  tense : Option String
  productive : Bool
  label : String
deriving DecidableEq

/-- The predictor that owns a method-chain entry (`self` in the tuples
`(self, payload)` the source appends to `methods`). -/
inductive PredictorId where
  | knownPrefixP
  | unknownPrefixP
  | knownSuffixP
  | hyphenParticleP
  | hyphenatedWordsP
  | punctuationP
  | latinP
deriving DecidableEq

/-- One method-chain entry `(predictor, payload)`; the shape classifiers
append `(self,)`, i.e. no payload. -/
abbrev Method := PredictorId × Option String

/-- The parse tuple
`(word, tag, normal_form, para_id, idx, estimate, methods)`. -/
structure Parse where
  word : String
  tag : Tag
  normal_form : String
  para_id : Option Nat
  idx : Option Nat
  estimate : ℚ
  methods : List Method
deriving DecidableEq

/-- The `(surface form, tag, normal form)` triple `parse[:3]` used by the
dedup helpers. -/
def reducedParse (p : Parse) : String × Tag × String := (p.word, p.tag, p.normal_form)

/-- The externally threaded `seen_parses` set, as the list of its members. -/
abbrev SeenParses := List (String × Tag × String)

/-- The recursive full analyzer (`self.morph`), an external collaborator. -/
structure Morph where
  parse : String → List Parse
  tag : String → List Tag

/-- The dictionary collaborator (`self.dict`), reduced to the operations the
predictors call.  `similar_items pid suffix` is
`prediction_suffixes_dawgs[pid].similar_items(suffix, self.dict.ee)` and
yields `(fixed_suffix, [(count, para_id, idx), ...])` pairs;
`known_prefixes word` is `prediction_prefixes.prefixes(word)`. -/
structure Dict where
  parse : String → List Parse
  tag : String → List Tag
  normalized : Parse → Parse
  known_prefixes : String → List String
  paradigm_prefixes : List String
  similar_items : Nat → String → List (String × List (Nat × Nat × Nat))
  build_tag_info : Nat → Nat → Tag
  build_normal_form : Nat → Nat → String → String
  max_suffix_length : Nat

/-! ### Dedup helpers (`_add_parse_if_not_seen`, `_add_tag_if_not_seen`) -/

/-- One call of `_add_parse_if_not_seen(parse, result_list, seen_parses)`:
the state is the pair (result list, seen set). -/
def addParseIfNotSeen (st : List Parse × SeenParses) (p : Parse) : List Parse × SeenParses :=
  if reducedParse p ∈ st.2 then st
  else (st.1 ++ [p], st.2 ++ [reducedParse p])

/-- A loop that pushes each candidate in order through
`_add_parse_if_not_seen`, starting from an empty result list. -/
def addParsesIfNotSeen (candidates : List Parse) (seen : SeenParses) :
    List Parse × SeenParses :=
  candidates.foldl addParseIfNotSeen ([], seen)

/-- One call of `_add_tag_if_not_seen(tag, result_list, seen_tags)`. -/
def addTagIfNotSeen (st : List Tag × List Tag) (t : Tag) : List Tag × List Tag :=
  if t ∈ st.2 then st
  else (st.1 ++ [t], st.2 ++ [t])

/-- A loop that pushes each candidate tag in order through
`_add_tag_if_not_seen`, starting from an empty result list. -/
def addTagsIfNotSeen (candidates : List Tag) (seen : List Tag) :
    List Tag × List Tag :=
  candidates.foldl addTagIfNotSeen ([], seen)

/-! ### KnownPrefixPredictor -/

/-- `KnownPrefixPredictor._word_prefixes`: the dictionary-known prefixes of
the word, stably sorted by length, longest first (Python's sort is stable, so
any stable sort under the same comparator produces the same list). -/
def wordPrefixes (d : Dict) (word : String) : List String :=
  (d.known_prefixes word).insertionSort (fun a b => strLen b ≤ strLen a)

/-- The candidate parses the `KnownPrefixPredictor.parse` loop offers to
`_add_parse_if_not_seen`, in loop order. -/
def knownPrefixCandidates (m : Morph) (d : Dict) (word : String) : List Parse :=
  (wordPrefixes d word).flatMap (fun pref =>
    let unprefixed_word := strDrop word (strLen pref)
    if strLen unprefixed_word < 3 then []
    else
      (m.parse unprefixed_word).filterMap (fun sub =>
        if sub.tag.productive then
          some { word := pref ++ sub.word
                 tag := sub.tag
                 normal_form := pref ++ sub.normal_form
                 para_id := sub.para_id
                 idx := sub.idx
                 estimate := sub.estimate * (3/4)
                 methods := sub.methods ++ [(PredictorId.knownPrefixP, some pref)] }
        else none))

/-- `KnownPrefixPredictor.parse` (`ESTIMATE_DECAY = 0.75`,
`MIN_REMINDER_LENGTH = 3`). -/
def knownPrefixParse (m : Morph) (d : Dict) (word : String) (seen : SeenParses) :
    List Parse :=
  (addParsesIfNotSeen (knownPrefixCandidates m d word) seen).1

/-- The candidate tags of the `KnownPrefixPredictor.tag` loop, in order. -/
def knownPrefixTagCandidates (m : Morph) (d : Dict) (word : String) : List Tag :=
  (wordPrefixes d word).flatMap (fun pref =>
    let unprefixed_word := strDrop word (strLen pref)
    if strLen unprefixed_word < 3 then []
    else (m.tag unprefixed_word).filter (fun t => t.productive))

/-- `KnownPrefixPredictor.tag`. -/
def knownPrefixTag (m : Morph) (d : Dict) (word : String) (seen : List Tag) :
    List Tag :=
  (addTagsIfNotSeen (knownPrefixTagCandidates m d word) seen).1

/-! ### UnknownPrefixPredictor -/

/-- The candidate parses of the `UnknownPrefixPredictor.parse` loop
(`word_splits` is the external splitting utility). -/
def unknownPrefixCandidates (d : Dict) (splits : String → List (String × String))
    (word : String) : List Parse :=
  (splits word).flatMap (fun pr =>
    (d.parse pr.2).filterMap (fun sub =>
      if sub.tag.productive then
        some { word := pr.1 ++ sub.word
               tag := sub.tag
               normal_form := pr.1 ++ sub.normal_form
               para_id := sub.para_id
               idx := sub.idx
               estimate := sub.estimate * (1/2)
               methods := sub.methods ++ [(PredictorId.unknownPrefixP, some pr.1)] }
      else none))

/-- `UnknownPrefixPredictor.parse` (`ESTIMATE_DECAY = 0.5`). -/
def unknownPrefixParse (d : Dict) (splits : String → List (String × String))
    (word : String) (seen : SeenParses) : List Parse :=
  (addParsesIfNotSeen (unknownPrefixCandidates d splits word) seen).1

/-- The candidate tags of the `UnknownPrefixPredictor.tag` loop. -/
def unknownPrefixTagCandidates (d : Dict) (splits : String → List (String × String))
    (word : String) : List Tag :=
  (splits word).flatMap (fun pr => (d.tag pr.2).filter (fun t => t.productive))

/-- `UnknownPrefixPredictor.tag`. -/
def unknownPrefixTag (d : Dict) (splits : String → List (String × String))
    (word : String) (seen : List Tag) : List Tag :=
  (addTagsIfNotSeen (unknownPrefixTagCandidates d splits word) seen).1

/-! ### KnownSuffixPredictor -/

/-- A provisional result recorded by the `KnownSuffixPredictor.parse` loop:
the tuple `(cnt, fixed_word, tag, normal_form, para_id, idx, prefix_id,
(method,))`. -/
structure RawEntry where
  cnt : Nat
  fixed_word : String
  tag : Tag
  normal_form : String
  para_id : Nat
  idx : Nat
  prefix_id : Nat
  methods : List Method
deriving DecidableEq

/-- `self._prediction_splits`: `list(reversed(range(1, max_suffix_length+1)))`. -/
def predictionSplits (d : Dict) : List Nat :=
  (List.range' 1 d.max_suffix_length).reverse

/-- The innermost loop body of `KnownSuffixPredictor.parse`: one
`(cnt, para_id, idx)` entry of one `fixed_suffix` hit at suffix length `i`
of the group `pid`.  The state is the shared `total_counts` list paired with
the accumulated provisional result list. -/
def processEntry (d : Dict) (word : String) (i : Nat) (pid : Nat) (seen : SeenParses)
    (fixed_suffix : String) (st : List Nat × List RawEntry) (e : Nat × Nat × Nat) :
    List Nat × List RawEntry :=
  let tag := d.build_tag_info e.2.1 e.2.2
  if tag.productive then
    let totals := st.1.set pid (st.1.getD pid 0 + e.1)
    let fixed_word := strDropEnd word i ++ fixed_suffix
    let normal_form := d.build_normal_form e.2.1 e.2.2 fixed_word
    if (fixed_word, tag, normal_form) ∈ seen then (totals, st.2)
    else (totals, st.2 ++ [{ cnt := e.1, fixed_word := fixed_word, tag := tag,
                             normal_form := normal_form, para_id := e.2.1, idx := e.2.2,
                             prefix_id := pid,
                             methods := [(PredictorId.knownSuffixP, some fixed_suffix)] }])
  else st

/-- One suffix length `i` of one group: all `similar_items` hits and their
entries, in order. -/
def processLength (d : Dict) (word : String) (pid : Nat) (seen : SeenParses)
    (st : List Nat × List RawEntry) (i : Nat) : List Nat × List RawEntry :=
  (d.similar_items pid (strTakeEnd word i)).foldl
    (fun st' pr => pr.2.foldl (processEntry d word i pid seen pr.1) st') st

/-- The per-group loop over candidate suffix lengths with the
`if total_counts[prefix_id] > 1: break` early termination. -/
def processLengthsLoop (d : Dict) (word : String) (pid : Nat) (seen : SeenParses) :
    List Nat → List Nat × List RawEntry → List Nat × List RawEntry
  | [], st => st
  | i :: rest, st =>
    let st' := processLength d word pid seen st i
    if st'.1.getD pid 0 > 1 then st'
    else processLengthsLoop d word pid seen rest st'

/-- One paradigm group `(prefix_id, prefix)` of `KnownSuffixPredictor.parse`:
skipped unless its prefix is a literal prefix of the word. -/
def processGroup (d : Dict) (word : String) (seen : SeenParses)
    (st : List Nat × List RawEntry) (g : Nat × String) : List Nat × List RawEntry :=
  if strStartsWith word g.2 then
    processLengthsLoop d word g.1 seen (predictionSplits d) st
  else st

/-- `self._paradigm_prefixes`:
`list(reversed(list(enumerate(self.dict.paradigm_prefixes))))`. -/
def paradigmGroups (d : Dict) : List (Nat × String) :=
  d.paradigm_prefixes.enum.reverse

/-- The main loop of `KnownSuffixPredictor.parse`: the final `total_counts`
list (initialized to all ones, Laplace smoothing) and the provisional result
list. -/
def knownSuffixRaw (d : Dict) (word : String) (seen : SeenParses) :
    List Nat × List RawEntry :=
  (paradigmGroups d).foldl (processGroup d word seen)
    (List.replicate d.paradigm_prefixes.length 1, [])

/-- The final normalization of one provisional result:
`cnt / total_counts[prefix_id] * ESTIMATE_DECAY` with `ESTIMATE_DECAY = 0.5`. -/
def scoreRawEntry (totals : List Nat) (e : RawEntry) : Parse :=
  { word := e.fixed_word
    tag := e.tag
    normal_form := e.normal_form
    para_id := some e.para_id
    idx := some e.idx
    estimate := (e.cnt : ℚ) / (totals.getD e.prefix_id 0 : ℚ) * (1/2)
    methods := e.methods }

/-- The comparator of `result.sort(key=operator.itemgetter(5), reverse=True)`:
stable sort by estimate, descending. -/
def estimateDescLe (a b : Parse) : Prop := b.estimate ≤ a.estimate

instance : DecidableRel estimateDescLe := fun a b =>
  inferInstanceAs (Decidable (b.estimate ≤ a.estimate))

instance : IsTotal Parse estimateDescLe :=
  ⟨fun a b => le_total b.estimate a.estimate⟩

instance : IsTrans Parse estimateDescLe :=
  ⟨fun _ _ _ h1 h2 => le_trans h2 h1⟩

/-- `KnownSuffixPredictor.parse` (`ESTIMATE_DECAY = 0.5`).  Python's
`list.sort` is stable, so the stable insertion sort under the same comparator
produces the same list. -/
def knownSuffixParse (d : Dict) (word : String) (seen : SeenParses) : List Parse :=
  let st := knownSuffixRaw d word seen
  (st.2.map (scoreRawEntry st.1)).insertionSort estimateDescLe

/-- The innermost loop body of `KnownSuffixPredictor.tag`: the state is the
threaded `seen_tags` set paired with the accumulated `(cnt, tag)` list. -/
def processTagEntry (d : Dict) (st : List Tag × List (Nat × Tag)) (e : Nat × Nat × Nat) :
    List Tag × List (Nat × Tag) :=
  let tag := d.build_tag_info e.2.1 e.2.2
  if tag.productive then
    if tag ∈ st.1 then st
    else (st.1 ++ [tag], st.2 ++ [(e.1, tag)])
  else st

/-- All `(cnt, para_id, idx)` entries returned by `similar_items` for suffix
length `i` of group `pid`, flattened in loop order. -/
def tagEntriesAt (d : Dict) (word : String) (pid : Nat) (i : Nat) :
    List (Nat × Nat × Nat) :=
  (d.similar_items pid (strTakeEnd word i)).flatMap (fun pr => pr.2)

/-- The per-group loop of `KnownSuffixPredictor.tag`: stop at the first
suffix length where any productive entry was found. -/
def tagLengthsLoop (d : Dict) (word : String) (pid : Nat) :
    List Nat → List Tag × List (Nat × Tag) → List Tag × List (Nat × Tag)
  | [], st => st
  | i :: rest, st =>
    let entries := tagEntriesAt d word pid i
    let st' := entries.foldl (processTagEntry d) st
    let found := entries.any (fun e => (d.build_tag_info e.2.1 e.2.2).productive)
    if found then st'
    else tagLengthsLoop d word pid rest st'

/-- One paradigm group of `KnownSuffixPredictor.tag`. -/
def processTagGroup (d : Dict) (word : String)
    (st : List Tag × List (Nat × Tag)) (g : Nat × String) : List Tag × List (Nat × Tag) :=
  if strStartsWith word g.2 then
    tagLengthsLoop d word g.1 (predictionSplits d) st
  else st

/-- The comparator of `result.sort(reverse=True)` on `(cnt, tag)` pairs:
descending by count, with the tag as the tie-break key. -/
def cntTagDescLe (a b : Nat × Tag) : Prop :=
  b.1 < a.1 ∨ (b.1 = a.1 ∧ b.2.label ≤ a.2.label)

instance : DecidableRel cntTagDescLe := fun a b =>
  inferInstanceAs (Decidable (b.1 < a.1 ∨ (b.1 = a.1 ∧ b.2.label ≤ a.2.label)))

/-- `KnownSuffixPredictor.tag`. -/
def knownSuffixTag (d : Dict) (word : String) (seen : List Tag) : List Tag :=
  let st := (paradigmGroups d).foldl (processTagGroup d word) (seen, [])
  (st.2.insertionSort cntTagDescLe).map (fun pr => pr.2)

/-! ### HyphenSeparatedParticlePredictor -/

/-- `HyphenSeparatedParticlePredictor.PARTICLES_AFTER_HYPHEN`. -/
def PARTICLES_AFTER_HYPHEN : List String :=
  ["-то", "-ка", "-таки", "-де", "-тко", "-тка", "-с", "-ста"]

/-- The candidate parses built for one particle: the stem parses of the full
analyzer, with the particle reattached to surface and normal form and the
estimate multiplied by `ESTIMATE_DECAY = 0.9`. -/
def particleCandidates (m : Morph) (word particle : String) : List Parse :=
  (m.parse (strDropEnd word (strLen particle))).map (fun sub =>
    { word := sub.word ++ particle
      tag := sub.tag
      normal_form := sub.normal_form ++ particle
      para_id := sub.para_id
      idx := sub.idx
      estimate := sub.estimate * (9/10)
      methods := sub.methods ++ [(PredictorId.hyphenParticleP, some particle)] })

/-- The particle loop of `HyphenSeparatedParticlePredictor.parse`: skip a
particle the word does not end with, skip a particle whose removal leaves an
empty stem (`continue`), and stop after the first particle that was actually
processed (`break`). -/
def particleLoop (m : Morph) (word : String) (seen : SeenParses) :
    List String → List Parse
  | [] => []
  | pt :: rest =>
    if strEndsWith word pt then
      if strDropEnd word (strLen pt) = "" then particleLoop m word seen rest
      else (addParsesIfNotSeen (particleCandidates m word pt) seen).1
    else particleLoop m word seen rest

/-- `HyphenSeparatedParticlePredictor.parse`. -/
def hyphenParticleParse (m : Morph) (word : String) (seen : SeenParses) : List Parse :=
  particleLoop m word seen PARTICLES_AFTER_HYPHEN

/-- The particle loop of `HyphenSeparatedParticlePredictor.tag`: the stem's
tags are returned directly, with no seen-set check and no dedup. -/
def particleTagLoop (m : Morph) (word : String) : List String → List Tag
  | [] => []
  | pt :: rest =>
    if strEndsWith word pt then
      if strDropEnd word (strLen pt) = "" then particleTagLoop m word rest
      else m.tag (strDropEnd word (strLen pt))
    else particleTagLoop m word rest

/-- `HyphenSeparatedParticlePredictor.tag` (the `seen_tags` argument is
accepted but never consulted by the source). -/
def hyphenParticleTag (m : Morph) (word : String) (seen : List Tag) : List Tag :=
  particleTagLoop m word PARTICLES_AFTER_HYPHEN

/-! ### HyphenatedWordsPredictor -/

/-- `HyphenatedWordsPredictor._similarity_features`:
`(tag.POS, tag.number, tag.case, tag.person, tag.tense)`. -/
def similarity_features (t : Tag) :
    Option String × Option String × Option String × Option String × Option String :=
  (t.POS, t.number, t.case_, t.person, t.tense)

/-- Step 1 candidates of `HyphenatedWordsPredictor.parse` (the left part as
an uninflected prefix): one candidate per right-side parse, tag and paradigm
from the right parse, estimate decayed by `ESTIMATE_DECAY = 0.75`. -/
def hyphenStep1Candidates (left right : String) (right_parses : List Parse) :
    List Parse :=
  right_parses.map (fun sub =>
    { word := left ++ "-" ++ sub.word
      tag := sub.tag
      normal_form := left ++ "-" ++ sub.normal_form
      para_id := sub.para_id
      idx := sub.idx
      estimate := sub.estimate * (3/4)
      methods := sub.methods ++ [(PredictorId.hyphenatedWordsP, some right)] })

/-- Step 2 candidates of `HyphenatedWordsPredictor.parse` (agreement fusion):
one candidate per (left parse, right parse) pair whose similarity features
coincide; tag, paradigm and index from the left parse, forms joined with a
hyphen, estimate of the left parse decayed by 0.75, method chain of the left
parse extended with `(self, word)`. -/
def hyphenStep2Candidates (word : String) (left_parses right_parses : List Parse) :
    List Parse :=
  left_parses.flatMap (fun l =>
    (right_parses.filter (fun r =>
        decide (similarity_features l.tag = similarity_features r.tag))).map (fun r =>
      { word := l.word ++ "-" ++ r.word
        tag := l.tag
        normal_form := l.normal_form ++ "-" ++ r.normal_form
        para_id := l.para_id
        idx := l.idx
        estimate := l.estimate * (3/4)
        methods := l.methods ++ [(PredictorId.hyphenatedWordsP, some word)] }))

/-- `HyphenatedWordsPredictor.parse`: empty without a hyphen; otherwise split
at the first hyphen, analyze both parts with the full analyzer, and push the
step 1 then step 2 candidates through the shared dedup helper. -/
def hyphenatedWordsParse (m : Morph) (word : String) (seen : SeenParses) : List Parse :=
  if hasHyphen word then
    let lr := hyphenSplit word
    let left_parses := m.parse lr.1
    let right_parses := m.parse lr.2
    (addParsesIfNotSeen
      (hyphenStep1Candidates lr.1 lr.2 right_parses ++
        hyphenStep2Candidates word left_parses right_parses) seen).1
  else []

/-- `HyphenatedWordsPredictor.tag`: run `parse` with a private empty seen set
and dedup the extracted tags. -/
def hyphenatedWordsTag (m : Morph) (word : String) (seen : List Tag) : List Tag :=
  (addTagsIfNotSeen ((hyphenatedWordsParse m word []).map Parse.tag) seen).1

/-! ### Shape classifiers (`_ShapeAnalyzer`, Punctuation, Latin) -/

/-- `_ShapeAnalyzer.parse`: on a matching shape, exactly one parse with the
word unchanged as surface and normal form, the fixed tag, no paradigm, the
fixed estimate 0.5 and a one-entry method chain with no payload. -/
def shapeParse (check : String → Bool) (t : Tag) (pid : PredictorId)
    (word : String) (seen : SeenParses) : List Parse :=
  if check word then
    [{ word := word
       tag := t
       normal_form := word
       para_id := none
       idx := none
       estimate := 1/2
       methods := [(pid, none)] }]
  else []

/-- `_ShapeAnalyzer.tag`. -/
def shapeTag (check : String → Bool) (t : Tag) (word : String) (seen : List Tag) :
    List Tag :=
  if check word then [t] else []

/-- `_ShapeAnalyzer.get_lexeme`: `return [form]`. -/
def shapeGetLexeme (form : Parse) (methods : List Method) : List Parse := [form]

/-- `_ShapeAnalyzer.normalized`: `return form`. -/
def shapeNormalized (form : Parse) : Parse := form

/-- `BasePredictor.normalized`: `return self.dict.normalized(form)`. -/
def baseNormalized (d : Dict) (form : Parse) : Parse := d.normalized form

/-- `PunctuationPredictor.parse`: the `_ShapeAnalyzer` algorithm with the
external `is_punctuation` predicate and the fixed `PNCT` tag built at
construction time. -/
def punctuationParse (is_punct : String → Bool) (pnctTag : Tag)
    (word : String) (seen : SeenParses) : List Parse :=
  shapeParse is_punct pnctTag PredictorId.punctuationP word seen

/-- `LatinPredictor.parse`: the `_ShapeAnalyzer` algorithm with the external
`is_latin` predicate and the fixed `LATN` tag. -/
def latinParse (is_latin : String → Bool) (latnTag : Tag)
    (word : String) (seen : SeenParses) : List Parse :=
  shapeParse is_latin latnTag PredictorId.latinP word seen

/-! ### Specification-side rendering of `KnownSuffixPredictor.parse`

These definitions transcribe §4.4 of the specification word by word, for the
refinement theorem of claim C4: every paradigm group whose prefix matches the
word is processed independently with its own running total initialized to 1;
candidate suffix lengths are generated from the longest down to 1 and the
group stops once its running total exceeds 1; each surviving result is scored
`observation count / group total × 0.5`; the assembled list is sorted by that
score, descending. -/

/-- The candidate suffix lengths of the specification: from the configured
maximum down to 1. -/
def specDescLengths : Nat → List Nat
  | 0 => []
  | n + 1 => (n + 1) :: specDescLengths n

/-- The specification's innermost step, carrying the group's own running
total instead of the shared `total_counts` list. -/
def specEntry (d : Dict) (word : String) (i : Nat) (pid : Nat) (seen : SeenParses)
    (fixed_suffix : String) (st : Nat × List RawEntry) (e : Nat × Nat × Nat) :
    Nat × List RawEntry :=
  let tag := d.build_tag_info e.2.1 e.2.2
  if tag.productive then
    let total := st.1 + e.1
    let fixed_word := strDropEnd word i ++ fixed_suffix
    let normal_form := d.build_normal_form e.2.1 e.2.2 fixed_word
    if (fixed_word, tag, normal_form) ∈ seen then (total, st.2)
    else (total, st.2 ++ [{ cnt := e.1, fixed_word := fixed_word, tag := tag,
                            normal_form := normal_form, para_id := e.2.1, idx := e.2.2,
                            prefix_id := pid,
                            methods := [(PredictorId.knownSuffixP, some fixed_suffix)] }])
  else st

/-- The specification's processing of one suffix length of one group. -/
def specLengthStep (d : Dict) (word : String) (pid : Nat) (seen : SeenParses)
    (st : Nat × List RawEntry) (i : Nat) : Nat × List RawEntry :=
  (d.similar_items pid (strTakeEnd word i)).foldl
    (fun st' pr => pr.2.foldl (specEntry d word i pid seen pr.1) st') st

/-- The specification's per-group loop: try lengths longest to shortest, stop
once the group's running total exceeds 1. -/
def specLengthsLoop (d : Dict) (word : String) (pid : Nat) (seen : SeenParses) :
    List Nat → Nat × List RawEntry → Nat × List RawEntry
  | [], st => st
  | i :: rest, st =>
    let st' := specLengthStep d word pid seen st i
    if st'.1 > 1 then st'
    else specLengthsLoop d word pid seen rest st'

/-- The specification's result for one paradigm group: its final running
total (initialized to 1) and its provisional results, empty unless the
group's prefix matches the word. -/
def specGroupResult (d : Dict) (word : String) (seen : SeenParses)
    (g : Nat × String) : Nat × List RawEntry :=
  if strStartsWith word g.2 then
    specLengthsLoop d word g.1 seen (specDescLengths d.max_suffix_length) (1, [])
  else (1, [])

/-- The specification-side rendering of `KnownSuffixPredictor.parse`: the
groups' provisional results assembled in group order, each scored by
`observation count / its own group's total × 0.5`, sorted by score
descending. -/
def knownSuffixParseSpec (d : Dict) (word : String) (seen : SeenParses) : List Parse :=
  let raw := (paradigmGroups d).flatMap (fun g => (specGroupResult d word seen g).2)
  (raw.map (fun e =>
    { word := e.fixed_word
      tag := e.tag
      normal_form := e.normal_form
      para_id := some e.para_id
      idx := some e.idx
      estimate := (e.cnt : ℚ) /
        ((specGroupResult d word seen (e.prefix_id, d.paradigm_prefixes.getD e.prefix_id "")).1 : ℚ) *
        (1/2)
      methods := e.methods })).insertionSort estimateDescLe

/-! ### Properties under scrutiny -/

/-- The `(surface form, tag, normal form)` triple of a provisional result. -/
def tripleOfRaw (e : RawEntry) : String × Tag × String :=
  (e.fixed_word, e.tag, e.normal_form)

/-- A result list whose `(surface form, tag, normal form)` triples are
pairwise distinct. -/
abbrev TriplesDistinct (l : List Parse) : Prop :=
  l.Pairwise (fun a b => reducedParse a ≠ reducedParse b)

/-- A tag result list that is duplicate-free and disjoint from the
caller-supplied seen set. -/
abbrev TagsOk (l : List Tag) (seen : List Tag) : Prop :=
  l.Nodup ∧ ∀ t ∈ l, t ∉ seen

/-- Relation between a `KnownSuffixPredictor.parse` loop state run with an
external seen set and the same state run with an empty seen set: the totals
agree and the recorded entries are exactly the unseen ones. -/
def SeenFilterRel (seen : SeenParses) (s t : List Nat × List RawEntry) : Prop :=
  s.1 = t.1 ∧ s.2 = t.2.filter (fun e => decide (tripleOfRaw e ∉ seen))

/-- Relation between a source-side `KnownSuffixPredictor.parse` state (shared
`total_counts` list) and a specification-side state (the group's own running
total): inside the group `pid`, the shared list holds the local total at
index `pid`, keeps its length `n`, leaves all other indices at their values
in `base`, and the recorded entries extend `racc0` by the group's local
entries. -/
def SuffixRel (pid n : Nat) (base : List Nat) (racc0 : List RawEntry)
    (s : List Nat × List RawEntry) (t : Nat × List RawEntry) : Prop :=
  s.1.getD pid 0 = t.1 ∧ s.2 = racc0 ++ t.2 ∧ s.1.length = n ∧
    ∀ j, j ≠ pid → s.1.getD j 0 = base.getD j 0

/-- Invariant of the `KnownSuffixPredictor.tag` loop state: the threaded
`seen_tags` set contains the initial seen set and every recorded tag, and the
recorded tags are duplicate-free and disjoint from the initial seen set. -/
def TagStateOk (seen0 : List Tag) (st : List Tag × List (Nat × Tag)) : Prop :=
  (∀ q ∈ seen0, q ∈ st.1) ∧ (∀ pr ∈ st.2, pr.2 ∈ st.1 ∧ pr.2 ∉ seen0) ∧
    (st.2.map Prod.snd).Nodup

/-- Every sub-parse estimate produced by the full analyzer lies in `(0, 1]`. -/
def MorphEstimatesOk (m : Morph) : Prop :=
  ∀ w p, p ∈ m.parse w → 0 < p.estimate ∧ p.estimate ≤ 1

/-- Every sub-parse estimate produced by the dictionary lies in `(0, 1]`. -/
def DictEstimatesOk (d : Dict) : Prop :=
  ∀ w p, p ∈ d.parse w → 0 < p.estimate ∧ p.estimate ≤ 1

/-- Every observation count of the dictionary's fuzzy suffix indexes is at
least 1. -/
def CountsPositive (d : Dict) : Prop :=
  ∀ pid suffix pr, pr ∈ d.similar_items pid suffix → ∀ e ∈ pr.2, 1 ≤ e.1

/-- The estimate of a parse derived from a sub-parse estimate `s ∈ (0, 1]`
by a decay factor: equal to `s` times the factor, strictly below `s`, and
inside `[0, 1]`. -/
def DecayedFrom (p : Parse) (decay : ℚ) : Prop :=
  ∃ s : ℚ, 0 < s ∧ s ≤ 1 ∧ p.estimate = s * decay ∧ p.estimate < s ∧
    0 ≤ p.estimate ∧ p.estimate ≤ 1

/-! ### Concrete instances for counterexamples and witnesses -/

/-- A productive tag used by the concrete instances. -/
def exTag : Tag :=
  { POS := some "NOUN", number := none, case_ := none, person := none,
    tense := none, productive := true, label := "T" }

/-- A second productive tag with different similarity features. -/
def exTagB : Tag :=
  { POS := some "VERB", number := none, case_ := none, person := none,
    tense := none, productive := true, label := "U" }

/-- A concrete sub-parse with estimate `1/2`, as the full analyzer of the
concrete instances returns it. -/
def exSubParse : Parse :=
  { word := "w", tag := exTag, normal_form := "n", para_id := some 0,
    idx := some 0, estimate := 1/2, methods := [] }

/-- A morph whose `parse` and `tag` always return empty lists. -/
def exMorph0 : Morph := { parse := fun _ => [], tag := fun _ => [] }

/-- A morph that analyzes every word as the single sub-parse `exSubParse`. -/
def exMorphW : Morph := { parse := fun _ => [exSubParse], tag := fun _ => [exTag] }

/-- A morph whose `tag` returns the same tag twice for every word. -/
def exMorphC3 : Morph := { parse := fun _ => [], tag := fun _ => [exTag, exTag] }

/-- A dictionary whose single paradigm group (empty prefix, maximum suffix
length 1) reports two distinct `(para_id, idx)` observations that build the
same tag and the same normal form, so `KnownSuffixPredictor.parse` records
the same `(surface form, tag, normal form)` triple twice. -/
def exDictC1 : Dict :=
  { parse := fun _ => []
    tag := fun _ => []
    normalized := fun p => p
    known_prefixes := fun _ => []
    paradigm_prefixes := [""]
    similar_items := fun _ _ => [("a", [(1, 0, 0), (1, 1, 0)])]
    build_tag_info := fun _ _ => exTag
    build_normal_form := fun _ _ w => w
    max_suffix_length := 1 }

/-- A dictionary whose single paradigm group reports exactly one observation
for every queried suffix. -/
def exDictC2 : Dict :=
  { parse := fun _ => []
    tag := fun _ => []
    normalized := fun p => p
    known_prefixes := fun _ => []
    paradigm_prefixes := [""]
    similar_items := fun _ _ => [("a", [(1, 0, 0)])]
    build_tag_info := fun _ _ => exTag
    build_normal_form := fun _ _ w => w
    max_suffix_length := 1 }

/-- A dictionary for the witnesses: one known prefix `"по"`, one paradigm
group with one observation, and direct parses with estimate `1/2`. -/
def exDictW : Dict :=
  { parse := fun _ => [exSubParse]
    tag := fun _ => [exTag]
    normalized := fun p => p
    known_prefixes := fun _ => ["po"]
    paradigm_prefixes := [""]
    similar_items := fun _ _ => [("a", [(1, 0, 0)])]
    build_tag_info := fun _ _ => exTag
    build_normal_form := fun _ _ w => w
    max_suffix_length := 1 }

/-- A dictionary whose `normalized` rewrites the estimate to 0, separating
`BasePredictor.normalized` from the shape classifiers' identity override. -/
def exDictC10 : Dict :=
  { parse := fun _ => []
    tag := fun _ => []
    normalized := fun p => { p with estimate := 0 }
    known_prefixes := fun _ => []
    paradigm_prefixes := []
    similar_items := fun _ _ => []
    build_tag_info := fun _ _ => exTag
    build_normal_form := fun _ _ w => w
    max_suffix_length := 0 }

/-- A word-splits utility for the witnesses: the single split after the
first code point. -/
def exSplits : String → List (String × String) :=
  fun w => [(strTake w 1, strDrop w 1)]

/-! ## Lemmas about the shared dedup helpers -/

theorem mem_foldl_addParse (cs : List Parse) (res : List Parse) (sn : SeenParses)
    (p : Parse) (hp : p ∈ (cs.foldl addParseIfNotSeen (res, sn)).1) :
    p ∈ res ∨ p ∈ cs := by
  induction cs generalizing res sn with
  | nil => exact Or.inl hp
  | cons c cs ih =>
    simp only [List.foldl_cons] at hp
    by_cases hc : reducedParse c ∈ sn
    · simp only [addParseIfNotSeen, hc, if_pos] at hp
      rcases ih res sn hp with h | h
      · exact Or.inl h
      · exact Or.inr (List.mem_cons_of_mem _ h)
    · simp only [addParseIfNotSeen, hc, if_neg, not_false_iff] at hp
      rcases ih _ _ hp with h | h
      · rcases List.mem_append.1 h with h' | h'
        · exact Or.inl h'
        · simp only [List.mem_singleton] at h'
          exact Or.inr (h' ▸ List.mem_cons_self _ _)
      · exact Or.inr (List.mem_cons_of_mem _ h)

/-- Every parse in the output of `addParsesIfNotSeen` is one of the offered
candidates. -/
theorem mem_addParsesIfNotSeen {p : Parse} {cs : List Parse} {seen : SeenParses}
    (hp : p ∈ (addParsesIfNotSeen cs seen).1) : p ∈ cs := by
  rcases mem_foldl_addParse cs [] seen p hp with h | h
  · cases h
  · exact h

theorem foldl_addParse_invariant (seen0 : SeenParses) (cs : List Parse) :
    ∀ (res : List Parse) (sn : SeenParses),
      (∀ q ∈ seen0, q ∈ sn) →
      (∀ p ∈ res, reducedParse p ∈ sn ∧ reducedParse p ∉ seen0) →
      TriplesDistinct res →
      TriplesDistinct (cs.foldl addParseIfNotSeen (res, sn)).1 ∧
        ∀ p ∈ (cs.foldl addParseIfNotSeen (res, sn)).1, reducedParse p ∉ seen0 := by
  induction cs with
  | nil =>
    intro res sn _ hres hdist
    exact ⟨hdist, fun p hp => (hres p hp).2⟩
  | cons c cs ih =>
    intro res sn hsub hres hdist
    simp only [List.foldl_cons]
    by_cases hc : reducedParse c ∈ sn
    · simp only [addParseIfNotSeen, hc, if_pos]
      exact ih res sn hsub hres hdist
    · simp only [addParseIfNotSeen, hc, if_neg, not_false_iff]
      refine ih (res ++ [c]) (sn ++ [reducedParse c]) ?_ ?_ ?_
      · exact fun q hq => List.mem_append_left _ (hsub q hq)
      · intro p hp
        rcases List.mem_append.1 hp with h | h
        · exact ⟨List.mem_append_left _ (hres p h).1, (hres p h).2⟩
        · simp only [List.mem_singleton] at h
          subst h
          refine ⟨List.mem_append_right _ (List.mem_singleton_self _), fun hmem => ?_⟩
          exact hc (hsub _ hmem)
      · refine (List.pairwise_append).2 ⟨hdist, List.pairwise_singleton _ _, ?_⟩
        intro a ha b hb
        simp only [List.mem_singleton] at hb
        subst hb
        intro heq
        exact hc (heq ▸ (hres a ha).1)

/-- The output of `addParsesIfNotSeen` has pairwise-distinct triples, none of
them in the initially supplied seen set. -/
theorem addParsesIfNotSeen_ok (cs : List Parse) (seen : SeenParses) :
    TriplesDistinct (addParsesIfNotSeen cs seen).1 ∧
      ∀ p ∈ (addParsesIfNotSeen cs seen).1, reducedParse p ∉ seen := by
  refine foldl_addParse_invariant seen cs [] seen (fun q hq => hq) ?_ List.Pairwise.nil
  intro p hp
  cases hp

theorem mem_foldl_addTag (cs : List Tag) (res : List Tag) (sn : List Tag)
    (t : Tag) (ht : t ∈ (cs.foldl addTagIfNotSeen (res, sn)).1) :
    t ∈ res ∨ t ∈ cs := by
  induction cs generalizing res sn with
  | nil => exact Or.inl ht
  | cons c cs ih =>
    simp only [List.foldl_cons] at ht
    by_cases hc : c ∈ sn
    · simp only [addTagIfNotSeen, hc, if_pos] at ht
      rcases ih res sn ht with h | h
      · exact Or.inl h
      · exact Or.inr (List.mem_cons_of_mem _ h)
    · simp only [addTagIfNotSeen, hc, if_neg, not_false_iff] at ht
      rcases ih _ _ ht with h | h
      · rcases List.mem_append.1 h with h' | h'
        · exact Or.inl h'
        · simp only [List.mem_singleton] at h'
          exact Or.inr (h' ▸ List.mem_cons_self _ _)
      · exact Or.inr (List.mem_cons_of_mem _ h)

theorem foldl_addTag_invariant (seen0 : List Tag) (cs : List Tag) :
    ∀ (res : List Tag) (sn : List Tag),
      (∀ q ∈ seen0, q ∈ sn) →
      (∀ t ∈ res, t ∈ sn ∧ t ∉ seen0) →
      res.Nodup →
      (cs.foldl addTagIfNotSeen (res, sn)).1.Nodup ∧
        ∀ t ∈ (cs.foldl addTagIfNotSeen (res, sn)).1, t ∉ seen0 := by
  induction cs with
  | nil =>
    intro res sn _ hres hdist
    exact ⟨hdist, fun t ht => (hres t ht).2⟩
  | cons c cs ih =>
    intro res sn hsub hres hdist
    simp only [List.foldl_cons]
    by_cases hc : c ∈ sn
    · simp only [addTagIfNotSeen, hc, if_pos]
      exact ih res sn hsub hres hdist
    · simp only [addTagIfNotSeen, hc, if_neg, not_false_iff]
      refine ih (res ++ [c]) (sn ++ [c]) ?_ ?_ ?_
      · exact fun q hq => List.mem_append_left _ (hsub q hq)
      · intro t ht
        rcases List.mem_append.1 ht with h | h
        · exact ⟨List.mem_append_left _ (hres t h).1, (hres t h).2⟩
        · simp only [List.mem_singleton] at h
          subst h
          exact ⟨List.mem_append_right _ (List.mem_singleton_self _),
            fun hmem => hc (hsub _ hmem)⟩
      · refine (List.pairwise_append).2 ⟨hdist, List.pairwise_singleton _ _, ?_⟩
        intro a ha b hb
        simp only [List.mem_singleton] at hb
        subst hb
        intro heq
        exact hc (heq ▸ (hres a ha).1)

/-- The output of `addTagsIfNotSeen` is duplicate-free and disjoint from the
initially supplied seen set. -/
theorem addTagsIfNotSeen_ok (cs : List Tag) (seen : List Tag) :
    TagsOk (addTagsIfNotSeen cs seen).1 seen := by
  refine foldl_addTag_invariant seen cs [] seen (fun q hq => hq) ?_ List.Pairwise.nil
  intro t ht
  cases ht

/-! ## Generic fold helpers -/

theorem foldl_preserves {σ α : Type _} (P : σ → Prop) (f : σ → α → σ)
    (hf : ∀ s a, P s → P (f s a)) (l : List α) : ∀ s, P s → P (l.foldl f s) := by
  induction l with
  | nil => exact fun s hs => hs
  | cons a l ih => exact fun s hs => ih _ (hf s a hs)

/-- The particle loop either returns nothing or the dedup-helper output for
the candidates of one particle of the list. -/
theorem particleLoop_cases (m : Morph) (word : String) (seen : SeenParses)
    (pts : List String) :
    particleLoop m word seen pts = [] ∨
      ∃ pt ∈ pts, particleLoop m word seen pts =
        (addParsesIfNotSeen (particleCandidates m word pt) seen).1 := by
  induction pts with
  | nil => exact Or.inl rfl
  | cons pt rest ih =>
    by_cases h1 : strEndsWith word pt = true
    · by_cases h2 : strDropEnd word (strLen pt) = ""
      · rcases ih with h | ⟨pt', hpt', h⟩
        · exact Or.inl (by simp only [particleLoop, h1, if_pos, h2, if_pos]; exact h)
        · refine Or.inr ⟨pt', List.mem_cons_of_mem _ hpt', ?_⟩
          simp only [particleLoop, h1, if_pos, h2, if_pos]
          exact h
      · refine Or.inr ⟨pt, List.mem_cons_self _ _, ?_⟩
        simp only [particleLoop, h1, if_pos, h2, if_neg, not_false_iff]
    · rcases ih with h | ⟨pt', hpt', h⟩
      · exact Or.inl (by simp only [particleLoop, h1, if_neg, not_false_iff]; exact h)
      · refine Or.inr ⟨pt', List.mem_cons_of_mem _ hpt', ?_⟩
        simp only [particleLoop, h1, if_neg, not_false_iff]
        exact h

/-! ## Claim C1 -/

/-- Claim C1, counterexample: `KnownSuffixPredictor.parse` does not enforce
pairwise-distinct `(surface form, tag, normal form)` triples.  With the
dictionary `exDictC1`, whose suffix index reports two paradigms that build
the same tag and normal form, the word `"ba"` yields two parses with the
identical triple `("ba", exTag, "ba")`. -/
theorem claim_C1_counterexample :
    ¬ TriplesDistinct (knownSuffixParse exDictC1 "ba" []) := by
  intro h
  have hmap : ((knownSuffixParse exDictC1 "ba" []).map reducedParse).Nodup :=
    h.map reducedParse (fun _ _ hab => hab)
  have hperm : (knownSuffixParse exDictC1 "ba" []).Perm
      ((knownSuffixRaw exDictC1 "ba" []).2.map
        (scoreRawEntry (knownSuffixRaw exDictC1 "ba" []).1)) :=
    List.perm_insertionSort _ _
  have hmap2 : ((knownSuffixRaw exDictC1 "ba" []).2.map
      (scoreRawEntry (knownSuffixRaw exDictC1 "ba" []).1)).map reducedParse
      = (knownSuffixRaw exDictC1 "ba" []).2.map tripleOfRaw := by
    rw [List.map_map]
    rfl
  have hnodup : ((knownSuffixRaw exDictC1 "ba" []).2.map tripleOfRaw).Nodup := by
    rw [← hmap2]
    exact ((hperm.map reducedParse).nodup_iff).1 hmap
  revert hnodup
  decide

/-- Claim C1, amended: every predictor whose `parse` pushes its candidates
through `_add_parse_if_not_seen` — KnownPrefixPredictor,
UnknownPrefixPredictor, HyphenSeparatedParticlePredictor,
HyphenatedWordsPredictor and the shape classifiers — returns a list whose
`(surface form, tag, normal form)` triples are pairwise distinct.
`KnownSuffixPredictor.parse` is excluded: it checks candidates only against
the externally supplied seen set, never against its own accumulator, so its
result list can repeat a triple. -/
theorem claim_C1 (m : Morph) (d : Dict) (splits : String → List (String × String))
    (check : String → Bool) (t : Tag) (pid : PredictorId)
    (word : String) (seen : SeenParses) :
    TriplesDistinct (knownPrefixParse m d word seen) ∧
    TriplesDistinct (unknownPrefixParse d splits word seen) ∧
    TriplesDistinct (hyphenParticleParse m word seen) ∧
    TriplesDistinct (hyphenatedWordsParse m word seen) ∧
    TriplesDistinct (shapeParse check t pid word seen) := by
  refine ⟨(addParsesIfNotSeen_ok _ _).1, (addParsesIfNotSeen_ok _ _).1, ?_, ?_, ?_⟩
  · rcases particleLoop_cases m word seen PARTICLES_AFTER_HYPHEN with h | ⟨pt, _, h⟩
    · rw [hyphenParticleParse, h]
      exact List.Pairwise.nil
    · rw [hyphenParticleParse, h]
      exact (addParsesIfNotSeen_ok _ _).1
  · rw [hyphenatedWordsParse]
    by_cases h : hasHyphen word = true
    · simp only [h, if_pos]
      exact (addParsesIfNotSeen_ok _ _).1
    · simp only [h, if_neg, not_false_iff]
      exact List.Pairwise.nil
  · rw [shapeParse]
    by_cases h : check word = true
    · simp only [h, if_pos]
      exact List.pairwise_singleton _ _
    · simp only [h, if_neg, not_false_iff]
      exact List.Pairwise.nil

/-! ## Claim C3 -/

theorem processTagEntry_preserves (d : Dict) (seen0 : List Tag)
    (st : List Tag × List (Nat × Tag)) (e : Nat × Nat × Nat)
    (h : TagStateOk seen0 st) : TagStateOk seen0 (processTagEntry d st e) := by
  obtain ⟨h1, h2, h3⟩ := h
  simp only [processTagEntry]
  by_cases hp : (d.build_tag_info e.2.1 e.2.2).productive = true
  · simp only [hp, if_pos]
    by_cases hm : d.build_tag_info e.2.1 e.2.2 ∈ st.1
    · simp only [hm, if_pos]
      exact ⟨h1, h2, h3⟩
    · simp only [hm, if_neg, not_false_iff]
      refine ⟨fun q hq => List.mem_append_left _ (h1 q hq), ?_, ?_⟩
      · intro pr hpr
        rcases List.mem_append.1 hpr with h' | h'
        · exact ⟨List.mem_append_left _ (h2 pr h').1, (h2 pr h').2⟩
        · simp only [List.mem_singleton] at h'
          subst h'
          exact ⟨List.mem_append_right _ (List.mem_singleton_self _),
            fun hmem => hm (h1 _ hmem)⟩
      · rw [List.map_append]
        refine (List.pairwise_append).2 ⟨h3, List.pairwise_singleton _ _, ?_⟩
        intro a ha b hb
        simp only [List.map_cons, List.map_nil, List.mem_singleton] at hb
        subst hb
        rcases List.mem_map.1 ha with ⟨pr, hpr, hpr2⟩
        intro heq
        exact hm (heq ▸ hpr2 ▸ (h2 pr hpr).1)
  · simp only [hp, if_neg, not_false_iff]
    exact ⟨h1, h2, h3⟩

theorem tagLengthsLoop_preserves (d : Dict) (word : String) (pid : Nat)
    (seen0 : List Tag) (lengths : List Nat) :
    ∀ st, TagStateOk seen0 st →
      TagStateOk seen0 (tagLengthsLoop d word pid lengths st) := by
  induction lengths with
  | nil => exact fun st h => h
  | cons i rest ih =>
    intro st h
    simp only [tagLengthsLoop]
    have hstep : TagStateOk seen0
        ((tagEntriesAt d word pid i).foldl (processTagEntry d) st) :=
      foldl_preserves (TagStateOk seen0) (processTagEntry d)
        (fun s a hs => processTagEntry_preserves d seen0 s a hs) _ st h
    by_cases hf : (tagEntriesAt d word pid i).any
        (fun e => (d.build_tag_info e.2.1 e.2.2).productive) = true
    · simp only [hf, if_pos]
      exact hstep
    · simp only [hf, if_neg, not_false_iff]
      exact ih _ hstep

theorem knownSuffixTag_ok (d : Dict) (word : String) (seen : List Tag) :
    TagsOk (knownSuffixTag d word seen) seen := by
  have hst : TagStateOk seen
      ((paradigmGroups d).foldl (processTagGroup d word) (seen, [])) := by
    refine foldl_preserves (TagStateOk seen) (processTagGroup d word) ?_ _ _
      ⟨fun q hq => hq, fun pr hpr => absurd hpr (List.not_mem_nil pr), List.Pairwise.nil⟩
    intro s g hs
    simp only [processTagGroup]
    by_cases hw : strStartsWith word g.2 = true
    · simp only [hw, if_pos]
      exact tagLengthsLoop_preserves d word g.1 seen _ s hs
    · simp only [hw, if_neg, not_false_iff]
      exact hs
  obtain ⟨-, h2, h3⟩ := hst
  constructor
  · have hperm := (List.perm_insertionSort cntTagDescLe
      ((paradigmGroups d).foldl (processTagGroup d word) (seen, [])).2).map Prod.snd
    exact (hperm.nodup_iff).2 h3
  · intro t ht
    rcases List.mem_map.1 ht with ⟨pr, hpr, hpr2⟩
    have hpr' : pr ∈ ((paradigmGroups d).foldl (processTagGroup d word) (seen, [])).2 :=
      (List.perm_insertionSort cntTagDescLe _).mem_iff.1 hpr
    exact hpr2 ▸ (h2 pr hpr').2

/-- Claim C3, counterexample: `HyphenSeparatedParticlePredictor.tag` returns
the stem's tags with no dedup and no seen-set check.  With a full analyzer
that tags every stem `[exTag, exTag]`, the word `"b-то"` yields a duplicated
tag list even though `exTag` is already in the caller's seen set. -/
theorem claim_C3_counterexample :
    ¬ TagsOk (hyphenParticleTag exMorphC3 "b-то" [exTag]) [exTag] := by
  decide

/-- Claim C3, amended: the `tag` methods that consult the seen set —
KnownPrefixPredictor, UnknownPrefixPredictor, KnownSuffixPredictor and
HyphenatedWordsPredictor — return pairwise-distinct tags, none of which was
in the caller-supplied seen set.  HyphenSeparatedParticlePredictor.tag is
excluded (it returns the stem's tags unchecked), and the shape classifiers'
`tag` ignores the seen set, though its singleton output is trivially
duplicate-free. -/
theorem claim_C3 (m : Morph) (d : Dict) (splits : String → List (String × String))
    (check : String → Bool) (t : Tag) (word : String) (seenT : List Tag) :
    TagsOk (knownPrefixTag m d word seenT) seenT ∧
    TagsOk (unknownPrefixTag d splits word seenT) seenT ∧
    TagsOk (knownSuffixTag d word seenT) seenT ∧
    TagsOk (hyphenatedWordsTag m word seenT) seenT ∧
    (shapeTag check t word seenT).Nodup := by
  refine ⟨addTagsIfNotSeen_ok _ _, addTagsIfNotSeen_ok _ _,
    knownSuffixTag_ok d word seenT, addTagsIfNotSeen_ok _ _, ?_⟩
  rw [shapeTag]
  by_cases h : check word = true
  · simp only [h, if_pos]
    exact List.pairwise_singleton _ _
  · simp only [h, if_neg, not_false_iff]
    exact List.Pairwise.nil

/-! ## Claim C2 -/

theorem foldl_rel {σ τ α : Type _} (R : σ → τ → Prop) (f : σ → α → σ) (g : τ → α → τ)
    (hfg : ∀ s t a, R s t → R (f s a) (g t a)) (l : List α) :
    ∀ s t, R s t → R (l.foldl f s) (l.foldl g t) := by
  induction l with
  | nil => exact fun s t h => h
  | cons a l ih => exact fun s t h => ih _ _ (hfg s t a h)

theorem processEntry_seenRel (d : Dict) (word : String) (i : Nat) (pid : Nat)
    (seen : SeenParses) (fs : String) (s t : List Nat × List RawEntry)
    (e : Nat × Nat × Nat) (h : SeenFilterRel seen s t) :
    SeenFilterRel seen (processEntry d word i pid seen fs s e)
      (processEntry d word i pid [] fs t e) := by
  obtain ⟨h1, h2⟩ := h
  simp only [processEntry, List.not_mem_nil, if_neg, not_false_iff]
  by_cases hp : (d.build_tag_info e.2.1 e.2.2).productive = true
  · simp only [hp, if_pos]
    by_cases hs : (strDropEnd word i ++ fs, d.build_tag_info e.2.1 e.2.2,
        d.build_normal_form e.2.1 e.2.2 (strDropEnd word i ++ fs)) ∈ seen
    · simp only [hs, if_pos]
      refine ⟨by rw [h1], ?_⟩
      rw [h2, List.filter_append]
      have : (List.filter (fun e => decide (tripleOfRaw e ∉ seen))
          [{ cnt := e.1, fixed_word := strDropEnd word i ++ fs,
             tag := d.build_tag_info e.2.1 e.2.2,
             normal_form := d.build_normal_form e.2.1 e.2.2 (strDropEnd word i ++ fs),
             para_id := e.2.1, idx := e.2.2, prefix_id := pid,
             methods := [(PredictorId.knownSuffixP, some fs)] }]) = [] := by
        simp [tripleOfRaw, hs]
      rw [this, List.append_nil]
    · simp only [hs, if_neg, not_false_iff]
      refine ⟨by rw [h1], ?_⟩
      rw [h2, List.filter_append]
      simp [tripleOfRaw, hs]
  · simp only [hp, if_neg, not_false_iff]
    exact ⟨h1, h2⟩

theorem processLength_seenRel (d : Dict) (word : String) (pid : Nat)
    (seen : SeenParses) (s t : List Nat × List RawEntry) (i : Nat)
    (h : SeenFilterRel seen s t) :
    SeenFilterRel seen (processLength d word pid seen s i)
      (processLength d word pid [] t i) := by
  refine foldl_rel (SeenFilterRel seen) _ _ ?_ _ s t h
  intro s' t' pr h'
  exact foldl_rel (SeenFilterRel seen) _ _
    (fun s'' t'' e h'' => processEntry_seenRel d word i pid seen pr.1 s'' t'' e h'') pr.2 s' t' h'

theorem lengthsLoop_seenRel (d : Dict) (word : String) (pid : Nat)
    (seen : SeenParses) (lengths : List Nat) :
    ∀ s t, SeenFilterRel seen s t →
      SeenFilterRel seen (processLengthsLoop d word pid seen lengths s)
        (processLengthsLoop d word pid [] lengths t) := by
  induction lengths with
  | nil => exact fun s t h => h
  | cons i rest ih =>
    intro s t h
    have hstep := processLength_seenRel d word pid seen s t i h
    simp only [processLengthsLoop]
    rw [hstep.1]
    by_cases hb : (processLength d word pid [] t i).1.getD pid 0 > 1
    · simp only [hb, if_pos]
      exact hstep
    · simp only [hb, if_neg, not_false_iff]
      exact ih _ _ hstep

theorem knownSuffixRaw_seen (d : Dict) (word : String) (seen : SeenParses) :
    SeenFilterRel seen (knownSuffixRaw d word seen) (knownSuffixRaw d word []) := by
  refine foldl_rel (SeenFilterRel seen) _ _ ?_ _ _ _ ⟨rfl, rfl⟩
  intro s t g h
  simp only [processGroup]
  by_cases hw : strStartsWith word g.2 = true
  · simp only [hw, if_pos]
    exact lengthsLoop_seenRel d word g.1 seen (predictionSplits d) s t h
  · simp only [hw, if_neg, not_false_iff]
    exact h

/-- Claim C2, counterexample: membership in the externally supplied seen set
does cause the skip.  With `exDictC2` and the word `"ba"`, the sole candidate
carries the triple `("ba", exTag, "ba")`; passing that triple in
`seen_parses` makes the call return nothing, while an empty seen set lets the
candidate through. -/
theorem claim_C2_counterexample :
    knownSuffixParse exDictC2 "ba" [("ba", exTag, "ba")] = [] ∧
      knownSuffixParse exDictC2 "ba" [] ≠ [] := by
  constructor
  · decide
  · decide

/-- Claim C2, amended: in `KnownSuffixPredictor.parse` a candidate triple is
skipped exactly when it is a member of the externally supplied seen set; the
call's own accumulator is never consulted, the seen set is never updated by
the call (so the totals are unaffected by it), and no further dedup pass is
applied before the list is returned — every returned parse's triple is
simply outside the supplied seen set. -/
theorem claim_C2 (d : Dict) (word : String) (seen : SeenParses) :
    (knownSuffixRaw d word seen).1 = (knownSuffixRaw d word []).1 ∧
    (knownSuffixRaw d word seen).2 =
      (knownSuffixRaw d word []).2.filter (fun e => decide (tripleOfRaw e ∉ seen)) ∧
    ∀ p ∈ knownSuffixParse d word seen, reducedParse p ∉ seen := by
  obtain ⟨h1, h2⟩ := knownSuffixRaw_seen d word seen
  refine ⟨h1, h2, ?_⟩
  intro p hp
  have hp' : p ∈ (knownSuffixRaw d word seen).2.map
      (scoreRawEntry (knownSuffixRaw d word seen).1) :=
    (List.perm_insertionSort estimateDescLe _).mem_iff.1 hp
  rcases List.mem_map.1 hp' with ⟨e, he, hpe⟩
  rw [h2] at he
  have := List.of_mem_filter he
  rw [← hpe]
  simpa [tripleOfRaw, reducedParse, scoreRawEntry] using of_decide_eq_true this

/-- Witness for claim C2 (amended) at the concrete dictionary `exDictC2`,
the word `"ba"` and a seen set already holding the candidate's triple. -/
theorem claim_C2_witness :
    (knownSuffixRaw exDictC2 "ba" [("ba", exTag, "ba")]).1 =
        (knownSuffixRaw exDictC2 "ba" []).1 ∧
    (knownSuffixRaw exDictC2 "ba" [("ba", exTag, "ba")]).2 =
        (knownSuffixRaw exDictC2 "ba" []).2.filter
          (fun e => decide (tripleOfRaw e ∉ ([("ba", exTag, "ba")] : SeenParses))) ∧
    ∀ p ∈ knownSuffixParse exDictC2 "ba" [("ba", exTag, "ba")],
      reducedParse p ∉ ([("ba", exTag, "ba")] : SeenParses) :=
  claim_C2 exDictC2 "ba" [("ba", exTag, "ba")]

/-! ## Claim C4: refinement of `KnownSuffixPredictor.parse` -/

theorem getD_set_self {l : List Nat} {i : Nat} (h : i < l.length) (x : Nat) :
    (l.set i x).getD i 0 = x := by
  simp [List.getD_eq_getElem?_getD, List.getElem?_set_self h]

theorem getD_set_ne {l : List Nat} {i j : Nat} (h : i ≠ j) (x : Nat) :
    (l.set i x).getD j 0 = l.getD j 0 := by
  simp [List.getD_eq_getElem?_getD, List.getElem?_set_ne h]

theorem range'_reverse_eq (n : Nat) :
    (List.range' 1 n).reverse = specDescLengths n := by
  induction n with
  | zero => rfl
  | succ n ih =>
    rw [List.range'_1_concat, List.reverse_append, specDescLengths]
    simp only [List.reverse_cons, List.reverse_nil, List.nil_append,
      List.cons_append, List.nil_append]
    rw [Nat.add_comm 1 n, ih]

/-- The source's descending list of candidate suffix lengths is the
specification's longest-to-shortest enumeration. -/
theorem predictionSplits_eq (d : Dict) :
    predictionSplits d = specDescLengths d.max_suffix_length :=
  range'_reverse_eq d.max_suffix_length

theorem processEntry_suffixRel (d : Dict) (word : String) (i : Nat) (pid : Nat)
    (seen : SeenParses) (fs : String) (n : Nat) (base : List Nat)
    (racc0 : List RawEntry) (hpid : pid < n)
    (s : List Nat × List RawEntry) (t : Nat × List RawEntry) (e : Nat × Nat × Nat)
    (h : SuffixRel pid n base racc0 s t) :
    SuffixRel pid n base racc0 (processEntry d word i pid seen fs s e)
      (specEntry d word i pid seen fs t e) := by
  obtain ⟨h1, h2, h3, h4⟩ := h
  have hlen : pid < s.1.length := h3 ▸ hpid
  simp only [processEntry, specEntry]
  by_cases hp : (d.build_tag_info e.2.1 e.2.2).productive = true
  · simp only [hp, if_pos]
    by_cases hs : (strDropEnd word i ++ fs, d.build_tag_info e.2.1 e.2.2,
        d.build_normal_form e.2.1 e.2.2 (strDropEnd word i ++ fs)) ∈ seen
    · simp only [hs, if_pos]
      refine ⟨?_, h2, ?_, ?_⟩
      · rw [getD_set_self hlen, h1]
      · rw [List.length_set, h3]
      · intro j hj
        rw [getD_set_ne (fun hji => hj hji.symm) _, h4 j hj]
    · simp only [hs, if_neg, not_false_iff]
      refine ⟨?_, ?_, ?_, ?_⟩
      · rw [getD_set_self hlen, h1]
      · rw [h2, List.append_assoc]
      · rw [List.length_set, h3]
      · intro j hj
        rw [getD_set_ne (fun hji => hj hji.symm) _, h4 j hj]
  · simp only [hp, if_neg, not_false_iff]
    exact ⟨h1, h2, h3, h4⟩

theorem processLength_suffixRel (d : Dict) (word : String) (pid : Nat)
    (seen : SeenParses) (n : Nat) (base : List Nat) (racc0 : List RawEntry)
    (hpid : pid < n) (s : List Nat × List RawEntry) (t : Nat × List RawEntry)
    (i : Nat) (h : SuffixRel pid n base racc0 s t) :
    SuffixRel pid n base racc0 (processLength d word pid seen s i)
      (specLengthStep d word pid seen t i) := by
  refine foldl_rel (SuffixRel pid n base racc0) _ _ ?_ _ s t h
  intro s' t' pr h'
  exact foldl_rel (SuffixRel pid n base racc0) _ _
    (fun s'' t'' e h'' =>
      processEntry_suffixRel d word i pid seen pr.1 n base racc0 hpid s'' t'' e h'')
    pr.2 s' t' h'

theorem lengthsLoop_suffixRel (d : Dict) (word : String) (pid : Nat)
    (seen : SeenParses) (n : Nat) (base : List Nat) (racc0 : List RawEntry)
    (hpid : pid < n) (lengths : List Nat) :
    ∀ s t, SuffixRel pid n base racc0 s t →
      SuffixRel pid n base racc0 (processLengthsLoop d word pid seen lengths s)
        (specLengthsLoop d word pid seen lengths t) := by
  induction lengths with
  | nil => exact fun s t h => h
  | cons i rest ih =>
    intro s t h
    have hstep := processLength_suffixRel d word pid seen n base racc0 hpid s t i h
    simp only [processLengthsLoop, specLengthsLoop]
    rw [hstep.1]
    by_cases hb : (specLengthStep d word pid seen t i).1 > 1
    · simp only [hb, if_pos]
      exact hstep
    · simp only [hb, if_neg, not_false_iff]
      exact ih _ _ hstep

/-- Inside one matching group, the source's shared-state processing is the
specification's group-local processing: index `pid` of `total_counts` holds
the group's local total, the other indices are untouched, and the group's
local entries are appended to the accumulated result list. -/
theorem processGroup_localizes (d : Dict) (word : String) (seen : SeenParses)
    (g : Nat × String) (totals : List Nat) (racc : List RawEntry)
    (hpid : g.1 < totals.length) (hone : totals.getD g.1 0 = 1) :
    SuffixRel g.1 totals.length totals racc
      (processGroup d word seen (totals, racc) g)
      (specGroupResult d word seen g) := by
  have hinit : SuffixRel g.1 totals.length totals racc (totals, racc)
      ((1 : Nat), ([] : List RawEntry)) :=
    ⟨hone, (List.append_nil racc).symm, rfl, fun _ _ => rfl⟩
  simp only [processGroup, specGroupResult]
  by_cases hw : strStartsWith word g.2 = true
  · simp only [hw, if_pos]
    rw [predictionSplits_eq d] at *
    exact lengthsLoop_suffixRel d word g.1 seen totals.length totals racc hpid
      (specDescLengths d.max_suffix_length) (totals, racc) (1, []) hinit
  · simp only [hw, if_neg, not_false_iff]
    exact hinit

/-- The groups fold of `KnownSuffixPredictor.parse`, related to the
specification's independent per-group results: the recorded entries are the
concatenation of the groups' local entries, and each group's slot of
`total_counts` ends at its local total. -/
theorem groupsFold_spec (d : Dict) (word : String) (seen : SeenParses) :
    ∀ (gs : List (Nat × String)) (totals : List Nat) (racc : List RawEntry),
      (∀ g ∈ gs, g.1 < totals.length ∧ totals.getD g.1 0 = 1) →
      gs.Pairwise (fun g g' => g.1 ≠ g'.1) →
      (gs.foldl (processGroup d word seen) (totals, racc)).2
          = racc ++ gs.flatMap (fun g => (specGroupResult d word seen g).2) ∧
      (∀ g ∈ gs, (gs.foldl (processGroup d word seen) (totals, racc)).1.getD g.1 0
          = (specGroupResult d word seen g).1) ∧
      (∀ i, (∀ g ∈ gs, g.1 ≠ i) →
        (gs.foldl (processGroup d word seen) (totals, racc)).1.getD i 0
          = totals.getD i 0) ∧
      (gs.foldl (processGroup d word seen) (totals, racc)).1.length
          = totals.length := by
  intro gs
  induction gs with
  | nil =>
    intro totals racc _ _
    exact ⟨(List.append_nil racc).symm, fun g hg => absurd hg (List.not_mem_nil g),
      fun i _ => rfl, rfl⟩
  | cons g gs ih =>
    intro totals racc hfresh hdist
    obtain ⟨hg1, hg2⟩ := hfresh g (List.mem_cons_self _ _)
    have hhead : ∀ g' ∈ gs, g.1 ≠ g'.1 := (List.pairwise_cons.1 hdist).1
    obtain ⟨r1, r2, r3, r4⟩ := processGroup_localizes d word seen g totals racc hg1 hg2
    have hfresh' : ∀ g' ∈ gs,
        g'.1 < (processGroup d word seen (totals, racc) g).1.length ∧
          (processGroup d word seen (totals, racc) g).1.getD g'.1 0 = 1 := by
      intro g' hg'
      refine ⟨r3 ▸ (hfresh g' (List.mem_cons_of_mem _ hg')).1, ?_⟩
      rw [r4 g'.1 (fun he => hhead g' hg' he.symm)]
      exact (hfresh g' (List.mem_cons_of_mem _ hg')).2
    obtain ⟨i1, i2, i3, i4⟩ := ih (processGroup d word seen (totals, racc) g).1
      (processGroup d word seen (totals, racc) g).2 hfresh'
      (List.pairwise_cons.1 hdist).2
    have hfold : (g :: gs).foldl (processGroup d word seen) (totals, racc)
        = gs.foldl (processGroup d word seen)
            ((processGroup d word seen (totals, racc) g).1,
             (processGroup d word seen (totals, racc) g).2) := by
      simp only [List.foldl_cons]
    refine ⟨?_, ?_, ?_, ?_⟩
    · rw [hfold, i1, r2, List.flatMap_cons, ← List.append_assoc]
    · intro g'' hg''
      rcases List.mem_cons.1 hg'' with h | h
      · subst h
        rw [hfold, i3 g''.1 (fun g' hg' => fun he => hhead g' hg' he.symm), r1]
      · rw [hfold]
        exact i2 g'' h
    · intro i hi
      rw [hfold, i3 i (fun g' hg' => hi g' (List.mem_cons_of_mem _ hg')),
        r4 i (fun he => hi g (List.mem_cons_self _ _) he.symm)]
    · rw [hfold, i4, r3]

/-- Membership in the reversed enumeration of the paradigm prefixes gives
the index bound and the indexed element. -/
theorem mem_paradigmGroups (d : Dict) (g : Nat × String)
    (hg : g ∈ paradigmGroups d) :
    g.1 < d.paradigm_prefixes.length ∧ d.paradigm_prefixes.getD g.1 "" = g.2 := by
  rw [paradigmGroups, List.mem_reverse] at hg
  have h := List.mem_enum_iff_getElem?.1 hg
  constructor
  · by_contra hlen
    rw [List.getElem?_eq_none (Nat.le_of_not_lt hlen)] at h
    cases h
  · rw [List.getD_eq_getElem?_getD, h]
    rfl

theorem paradigmGroups_pairwise (d : Dict) :
    (paradigmGroups d).Pairwise (fun g g' => g.1 ≠ g'.1) := by
  rw [paradigmGroups, List.pairwise_reverse]
  have hnodup : (d.paradigm_prefixes.enum.map Prod.fst).Nodup := by
    rw [List.enum_map_fst]
    exact List.nodup_range _
  have := (List.pairwise_map).1 hnodup
  exact this.imp (fun h => fun he => h he.symm)

/-- The provisional results and final totals of the source loop are exactly
the specification's per-group results. -/
theorem knownSuffixRaw_spec (d : Dict) (word : String) (seen : SeenParses) :
    (knownSuffixRaw d word seen).2
        = (paradigmGroups d).flatMap (fun g => (specGroupResult d word seen g).2) ∧
    ∀ g ∈ paradigmGroups d,
      (knownSuffixRaw d word seen).1.getD g.1 0 = (specGroupResult d word seen g).1 := by
  have hfresh : ∀ g ∈ paradigmGroups d,
      g.1 < (List.replicate d.paradigm_prefixes.length (1 : Nat)).length ∧
        (List.replicate d.paradigm_prefixes.length (1 : Nat)).getD g.1 0 = 1 := by
    intro g hg
    have hb := (mem_paradigmGroups d g hg).1
    refine ⟨by simpa using hb, ?_⟩
    rw [List.getD_eq_getElem?_getD, List.getElem?_replicate_of_lt hb]
    rfl
  obtain ⟨h1, h2, _, _⟩ := groupsFold_spec d word seen (paradigmGroups d)
    (List.replicate d.paradigm_prefixes.length 1) [] hfresh (paradigmGroups_pairwise d)
  exact ⟨h1, h2⟩

theorem specEntry_pid (d : Dict) (word : String) (i : Nat) (pid : Nat)
    (seen : SeenParses) (fs : String) (st : Nat × List RawEntry) (e : Nat × Nat × Nat)
    (h : ∀ x ∈ st.2, x.prefix_id = pid) :
    ∀ x ∈ (specEntry d word i pid seen fs st e).2, x.prefix_id = pid := by
  simp only [specEntry]
  by_cases hp : (d.build_tag_info e.2.1 e.2.2).productive = true
  · simp only [hp, if_pos]
    by_cases hs : (strDropEnd word i ++ fs, d.build_tag_info e.2.1 e.2.2,
        d.build_normal_form e.2.1 e.2.2 (strDropEnd word i ++ fs)) ∈ seen
    · simp only [hs, if_pos]
      exact h
    · simp only [hs, if_neg, not_false_iff]
      intro x hx
      rcases List.mem_append.1 hx with h' | h'
      · exact h x h'
      · simp only [List.mem_singleton] at h'
        subst h'
        rfl
  · simp only [hp, if_neg, not_false_iff]
    exact h

theorem specLengthsLoop_pid (d : Dict) (word : String) (pid : Nat)
    (seen : SeenParses) (lengths : List Nat) :
    ∀ st, (∀ x ∈ st.2, x.prefix_id = pid) →
      ∀ x ∈ (specLengthsLoop d word pid seen lengths st).2, x.prefix_id = pid := by
  induction lengths with
  | nil => exact fun st h => h
  | cons i rest ih =>
    intro st h
    have hstep : ∀ x ∈ (specLengthStep d word pid seen st i).2, x.prefix_id = pid := by
      refine foldl_preserves (fun s => ∀ x ∈ s.2, x.prefix_id = pid) _ ?_ _ st h
      intro s pr hs
      exact foldl_preserves (fun s' => ∀ x ∈ s'.2, x.prefix_id = pid) _
        (fun s' e hs' => specEntry_pid d word i pid seen pr.1 s' e hs') pr.2 s hs
    simp only [specLengthsLoop]
    by_cases hb : (specLengthStep d word pid seen st i).1 > 1
    · simp only [hb, if_pos]
      exact hstep
    · simp only [hb, if_neg, not_false_iff]
      exact ih _ hstep

theorem specGroupResult_pid (d : Dict) (word : String) (seen : SeenParses)
    (g : Nat × String) :
    ∀ x ∈ (specGroupResult d word seen g).2, x.prefix_id = g.1 := by
  simp only [specGroupResult]
  by_cases hw : strStartsWith word g.2 = true
  · simp only [hw, if_pos]
    exact specLengthsLoop_pid d word g.1 seen _ (1, [])
      (fun x hx => absurd hx (List.not_mem_nil x))
  · simp only [hw, if_neg, not_false_iff]
    exact fun x hx => absurd hx (List.not_mem_nil x)

/-- `KnownSuffixPredictor.parse` equals its specification-side rendering. -/
theorem knownSuffixParse_eq_spec (d : Dict) (word : String) (seen : SeenParses) :
    knownSuffixParse d word seen = knownSuffixParseSpec d word seen := by
  obtain ⟨hraw, htotals⟩ := knownSuffixRaw_spec d word seen
  show ((knownSuffixRaw d word seen).2.map
      (scoreRawEntry (knownSuffixRaw d word seen).1)).insertionSort estimateDescLe
    = (((paradigmGroups d).flatMap
        (fun g => (specGroupResult d word seen g).2)).map _).insertionSort estimateDescLe
  rw [hraw]
  have hmap : ((paradigmGroups d).flatMap
        (fun g => (specGroupResult d word seen g).2)).map
      (scoreRawEntry (knownSuffixRaw d word seen).1)
      = ((paradigmGroups d).flatMap
        (fun g => (specGroupResult d word seen g).2)).map
      (fun e =>
        { word := e.fixed_word
          tag := e.tag
          normal_form := e.normal_form
          para_id := some e.para_id
          idx := some e.idx
          estimate := (e.cnt : ℚ) /
            ((specGroupResult d word seen
              (e.prefix_id, d.paradigm_prefixes.getD e.prefix_id "")).1 : ℚ) * (1/2)
          methods := e.methods }) := by
    apply List.map_congr_left
    intro e he
    rcases List.mem_flatMap.1 he with ⟨g, hg, heg⟩
    have hpid : e.prefix_id = g.1 := specGroupResult_pid d word seen g e heg
    have hgetd := (mem_paradigmGroups d g hg).2
    have hpair : ((e.prefix_id, d.paradigm_prefixes.getD e.prefix_id "") : Nat × String)
        = g := by
      rw [hpid, hgetd]
    rw [scoreRawEntry, hpair, ← htotals g hg, ← hpid]
  rw [hmap]

/-- Claim C4: in `KnownSuffixPredictor.parse`, for each paradigm group whose
prefix matches the word, candidate suffix lengths are tried from longest to
shortest and no shorter length is tried once the group's running total
(initialized to 1) exceeds 1; each surviving result's final score is its
observation count divided by its group's total, times 0.5; and the returned
list is sorted by that score in descending order.  The first part is the
refinement equality against the specification-side rendering
`knownSuffixParseSpec`, which transcribes exactly that traversal and scoring;
the second part is the descending sortedness of the returned estimates. -/
theorem claim_C4 (d : Dict) (word : String) (seen : SeenParses) :
    knownSuffixParse d word seen = knownSuffixParseSpec d word seen ∧
    (knownSuffixParse d word seen).Pairwise (fun a b => b.estimate ≤ a.estimate) := by
  refine ⟨knownSuffixParse_eq_spec d word seen, ?_⟩
  exact List.sorted_insertionSort estimateDescLe _

/-! ## Claim C5 -/

theorem foldl_preserves_mem {σ α : Type _} (P : σ → Prop) (f : σ → α → σ) :
    ∀ (l : List α), (∀ s a, a ∈ l → P s → P (f s a)) → ∀ s, P s → P (l.foldl f s) := by
  intro l
  induction l with
  | nil => exact fun _ s h => h
  | cons a l ih =>
    intro hf s h
    exact ih (fun s' a' ha' hs' => hf s' a' (List.mem_cons_of_mem _ ha') hs') _
      (hf s a (List.mem_cons_self _ _) h)

theorem specEntry_bound (d : Dict) (word : String) (i : Nat) (pid : Nat)
    (seen : SeenParses) (fs : String) (st : Nat × List RawEntry) (e : Nat × Nat × Nat)
    (hcnt : 1 ≤ e.1)
    (h : 1 ≤ st.1 ∧ ∀ x ∈ st.2, 1 ≤ x.cnt ∧ x.cnt < st.1) :
    1 ≤ (specEntry d word i pid seen fs st e).1 ∧
      ∀ x ∈ (specEntry d word i pid seen fs st e).2,
        1 ≤ x.cnt ∧ x.cnt < (specEntry d word i pid seen fs st e).1 := by
  obtain ⟨h1, h2⟩ := h
  simp only [specEntry]
  by_cases hp : (d.build_tag_info e.2.1 e.2.2).productive = true
  · simp only [hp, if_pos]
    by_cases hs : (strDropEnd word i ++ fs, d.build_tag_info e.2.1 e.2.2,
        d.build_normal_form e.2.1 e.2.2 (strDropEnd word i ++ fs)) ∈ seen
    · simp only [hs, if_pos]
      refine ⟨Nat.le_add_right_of_le h1, ?_⟩
      intro x hx
      exact ⟨(h2 x hx).1, Nat.lt_add_right _ (h2 x hx).2⟩
    · simp only [hs, if_neg, not_false_iff]
      refine ⟨Nat.le_add_right_of_le h1, ?_⟩
      intro x hx
      rcases List.mem_append.1 hx with h' | h'
      · exact ⟨(h2 x h').1, Nat.lt_add_right _ (h2 x h').2⟩
      · simp only [List.mem_singleton] at h'
        subst h'
        exact ⟨hcnt, Nat.lt_add_of_pos_left h1⟩
  · simp only [hp, if_neg, not_false_iff]
    exact ⟨h1, h2⟩

theorem specLengthsLoop_bound (d : Dict) (word : String) (pid : Nat)
    (seen : SeenParses) (hc : CountsPositive d) (lengths : List Nat) :
    ∀ st, (1 ≤ st.1 ∧ ∀ x ∈ st.2, 1 ≤ x.cnt ∧ x.cnt < st.1) →
      1 ≤ (specLengthsLoop d word pid seen lengths st).1 ∧
        ∀ x ∈ (specLengthsLoop d word pid seen lengths st).2,
          1 ≤ x.cnt ∧ x.cnt < (specLengthsLoop d word pid seen lengths st).1 := by
  induction lengths with
  | nil => exact fun st h => h
  | cons i rest ih =>
    intro st h
    have hstep : 1 ≤ (specLengthStep d word pid seen st i).1 ∧
        ∀ x ∈ (specLengthStep d word pid seen st i).2,
          1 ≤ x.cnt ∧ x.cnt < (specLengthStep d word pid seen st i).1 := by
      refine foldl_preserves_mem
        (fun s => 1 ≤ s.1 ∧ ∀ x ∈ s.2, 1 ≤ x.cnt ∧ x.cnt < s.1) _ _ ?_ st h
      intro s pr hpr hs
      refine foldl_preserves_mem
        (fun s' => 1 ≤ s'.1 ∧ ∀ x ∈ s'.2, 1 ≤ x.cnt ∧ x.cnt < s'.1) _ _ ?_ s hs
      intro s' e he hs'
      exact specEntry_bound d word i pid seen pr.1 s' e
        (hc pid (strTakeEnd word i) pr hpr e he) hs'
    simp only [specLengthsLoop]
    by_cases hb : (specLengthStep d word pid seen st i).1 > 1
    · simp only [hb, if_pos]
      exact hstep
    · simp only [hb, if_neg, not_false_iff]
      exact ih _ hstep

theorem specGroupResult_bound (d : Dict) (word : String) (seen : SeenParses)
    (hc : CountsPositive d) (g : Nat × String) :
    ∀ x ∈ (specGroupResult d word seen g).2,
      1 ≤ x.cnt ∧ x.cnt < (specGroupResult d word seen g).1 := by
  simp only [specGroupResult]
  by_cases hw : strStartsWith word g.2 = true
  · simp only [hw, if_pos]
    exact (specLengthsLoop_bound d word g.1 seen hc _ (1, [])
      ⟨le_refl 1, fun x hx => absurd hx (List.not_mem_nil x)⟩).2
  · simp only [hw, if_neg, not_false_iff]
    exact fun x hx => absurd hx (List.not_mem_nil x)

/-- Every provisional result of `KnownSuffixPredictor.parse` has a positive
observation count strictly below its group's final total. -/
theorem knownSuffixRaw_bound (d : Dict) (word : String) (seen : SeenParses)
    (hc : CountsPositive d) :
    ∀ e ∈ (knownSuffixRaw d word seen).2,
      1 ≤ e.cnt ∧ e.cnt < (knownSuffixRaw d word seen).1.getD e.prefix_id 0 := by
  obtain ⟨hraw, htotals⟩ := knownSuffixRaw_spec d word seen
  intro e he
  rw [hraw] at he
  rcases List.mem_flatMap.1 he with ⟨g, hg, heg⟩
  have hpid : e.prefix_id = g.1 := specGroupResult_pid d word seen g e heg
  have hbound := specGroupResult_bound d word seen hc g e heg
  rw [hpid, htotals g hg]
  exact hbound

theorem decayedFrom_mk (p : Parse) (s decay : ℚ) (h0 : 0 < s) (h1 : s ≤ 1)
    (hd0 : 0 < decay) (hd1 : decay < 1) (he : p.estimate = s * decay) :
    DecayedFrom p decay := by
  refine ⟨s, h0, h1, he, ?_, ?_, ?_⟩
  · rw [he]
    exact mul_lt_of_lt_one_right h0 hd1
  · rw [he]
    positivity
  · rw [he]
    have h2 : s * decay ≤ 1 * 1 := mul_le_mul h1 hd1.le hd0.le zero_le_one
    simpa using h2

/-- Claim C5: assuming every sub-parse estimate lies in `(0, 1]` (and the
dictionary's observation counts are positive), each parse returned by a
predictor has an estimate equal to a generating sub-estimate times the
predictor's decay factor — 0.75 for KnownPrefixPredictor, 0.5 for
UnknownPrefixPredictor, 0.5 for KnownSuffixPredictor (the generating
sub-estimate being its count ratio), 0.9 for
HyphenSeparatedParticlePredictor, 0.75 for HyphenatedWordsPredictor —
strictly below that sub-estimate, and always inside `[0, 1]`. -/
theorem claim_C5 (m : Morph) (d : Dict) (splits : String → List (String × String))
    (word : String) (seen : SeenParses)
    (hm : MorphEstimatesOk m) (hd : DictEstimatesOk d) (hc : CountsPositive d) :
    (∀ p ∈ knownPrefixParse m d word seen, DecayedFrom p (3/4)) ∧
    (∀ p ∈ unknownPrefixParse d splits word seen, DecayedFrom p (1/2)) ∧
    (∀ p ∈ knownSuffixParse d word seen, DecayedFrom p (1/2)) ∧
    (∀ p ∈ hyphenParticleParse m word seen, DecayedFrom p (9/10)) ∧
    (∀ p ∈ hyphenatedWordsParse m word seen, DecayedFrom p (3/4)) := by
  refine ⟨?_, ?_, ?_, ?_, ?_⟩
  · intro p hp
    have hp' := mem_addParsesIfNotSeen hp
    rcases List.mem_flatMap.1 hp' with ⟨pref, _, hp2⟩
    simp only at hp2
    by_cases hlen : strLen (strDrop word (strLen pref)) < 3
    · rw [if_pos hlen] at hp2
      exact absurd hp2 (List.not_mem_nil p)
    · rw [if_neg hlen] at hp2
      rcases List.mem_filterMap.1 hp2 with ⟨sub, hsub, heq⟩
      by_cases hprod : sub.tag.productive = true
      · rw [if_pos hprod] at heq
        obtain ⟨h0, h1⟩ := hm _ sub hsub
        rw [Option.some.injEq] at heq
        subst heq
        exact decayedFrom_mk _ sub.estimate (3/4) h0 h1 (by norm_num) (by norm_num) rfl
      · rw [if_neg hprod] at heq
        cases heq
  · intro p hp
    have hp' := mem_addParsesIfNotSeen hp
    rcases List.mem_flatMap.1 hp' with ⟨pr, _, hp2⟩
    rcases List.mem_filterMap.1 hp2 with ⟨sub, hsub, heq⟩
    by_cases hprod : sub.tag.productive = true
    · rw [if_pos hprod] at heq
      obtain ⟨h0, h1⟩ := hd _ sub hsub
      rw [Option.some.injEq] at heq
      subst heq
      exact decayedFrom_mk _ sub.estimate (1/2) h0 h1 (by norm_num) (by norm_num) rfl
    · rw [if_neg hprod] at heq
      cases heq
  · intro p hp
    have hp' : p ∈ (knownSuffixRaw d word seen).2.map
        (scoreRawEntry (knownSuffixRaw d word seen).1) :=
      (List.perm_insertionSort estimateDescLe _).mem_iff.1 hp
    rcases List.mem_map.1 hp' with ⟨e, he, hpe⟩
    obtain ⟨hcnt, hlt⟩ := knownSuffixRaw_bound d word seen hc e he
    subst hpe
    have hTQ : (0 : ℚ) < ((knownSuffixRaw d word seen).1.getD e.prefix_id 0 : ℚ) := by
      have : 0 < (knownSuffixRaw d word seen).1.getD e.prefix_id 0 :=
        Nat.lt_of_le_of_lt (Nat.zero_le _) hlt
      exact_mod_cast this
    refine decayedFrom_mk _
      ((e.cnt : ℚ) / ((knownSuffixRaw d word seen).1.getD e.prefix_id 0 : ℚ))
      (1/2) ?_ ?_ (by norm_num) (by norm_num) rfl
    · apply div_pos _ hTQ
      exact_mod_cast Nat.lt_of_lt_of_le Nat.zero_lt_one hcnt
    · rw [div_le_one hTQ]
      exact_mod_cast Nat.le_of_lt hlt
  · intro p hp
    rcases particleLoop_cases m word seen PARTICLES_AFTER_HYPHEN with h | ⟨pt, _, h⟩
    · rw [hyphenParticleParse, h] at hp
      exact absurd hp (List.not_mem_nil p)
    · rw [hyphenParticleParse, h] at hp
      have hp' := mem_addParsesIfNotSeen hp
      rcases List.mem_map.1 hp' with ⟨sub, hsub, hpe⟩
      obtain ⟨h0, h1⟩ := hm _ sub hsub
      subst hpe
      exact decayedFrom_mk _ sub.estimate (9/10) h0 h1 (by norm_num) (by norm_num) rfl
  · intro p hp
    rw [hyphenatedWordsParse] at hp
    by_cases hh : hasHyphen word = true
    · rw [if_pos hh] at hp
      have hp' := mem_addParsesIfNotSeen hp
      rcases List.mem_append.1 hp' with h | h
      · rcases List.mem_map.1 h with ⟨sub, hsub, hpe⟩
        obtain ⟨h0, h1⟩ := hm _ sub hsub
        subst hpe
        exact decayedFrom_mk _ sub.estimate (3/4) h0 h1 (by norm_num) (by norm_num) rfl
      · rcases List.mem_flatMap.1 h with ⟨l, hl, hp2⟩
        rcases List.mem_map.1 hp2 with ⟨r, _, hpe⟩
        obtain ⟨h0, h1⟩ := hm _ l hl
        subst hpe
        exact decayedFrom_mk _ l.estimate (3/4) h0 h1 (by norm_num) (by norm_num) rfl
    · rw [if_neg hh] at hp
      exact absurd hp (List.not_mem_nil p)

/-- Witness for claim C5 at the concrete collaborators `exMorphW`, `exDictW`
and `exSplits` and the word `"b-то"`. -/
theorem claim_C5_witness :
    (∀ p ∈ knownPrefixParse exMorphW exDictW "b-то" [], DecayedFrom p (3/4)) ∧
    (∀ p ∈ unknownPrefixParse exDictW exSplits "b-то" [], DecayedFrom p (1/2)) ∧
    (∀ p ∈ knownSuffixParse exDictW "b-то" [], DecayedFrom p (1/2)) ∧
    (∀ p ∈ hyphenParticleParse exMorphW "b-то" [], DecayedFrom p (9/10)) ∧
    (∀ p ∈ hyphenatedWordsParse exMorphW "b-то" [], DecayedFrom p (3/4)) := by
  apply claim_C5
  · intro w p hp
    simp only [exMorphW, List.mem_singleton] at hp
    subst hp
    constructor <;> norm_num [exSubParse]
  · intro w p hp
    simp only [exDictW, List.mem_singleton] at hp
    subst hp
    constructor <;> norm_num [exSubParse]
  · intro pid suffix pr hpr e he
    simp only [exDictW, List.mem_singleton] at hpr
    subst hpr
    simp only [List.mem_singleton] at he
    subst he
    exact le_refl 1

/-! ## Claim C6 -/

/-- Claim C6: `HyphenatedWordsPredictor`'s Strategy B builds a combined parse
for a (left, right) pair exactly when their similarity signatures — the
`(POS, number, case, person, tense)` tuples of their tags — coincide, and the
combined parse takes tag, paradigm identifier and form index from the left
parse, joins the forms with a hyphen, and decays the left estimate by 0.75. -/
theorem claim_C6 (word : String) (L R : List Parse) (p : Parse) :
    p ∈ hyphenStep2Candidates word L R ↔
      ∃ l ∈ L, ∃ r ∈ R, similarity_features l.tag = similarity_features r.tag ∧
        p.word = l.word ++ "-" ++ r.word ∧
        p.tag = l.tag ∧
        p.normal_form = l.normal_form ++ "-" ++ r.normal_form ∧
        p.para_id = l.para_id ∧ p.idx = l.idx ∧
        p.estimate = l.estimate * (3/4) ∧
        p.methods = l.methods ++ [(PredictorId.hyphenatedWordsP, some word)] := by
  constructor
  · intro hp
    rcases List.mem_flatMap.1 hp with ⟨l, hl, hp2⟩
    rcases List.mem_map.1 hp2 with ⟨r, hr, hpe⟩
    have hrf := List.mem_filter.1 hr
    refine ⟨l, hl, r, hrf.1, of_decide_eq_true hrf.2, ?_⟩
    subst hpe
    exact ⟨rfl, rfl, rfl, rfl, rfl, rfl, rfl⟩
  · rintro ⟨l, hl, r, hr, hsim, hw, ht, hn, hpa, hi, he, hmth⟩
    apply List.mem_flatMap.2
    refine ⟨l, hl, ?_⟩
    apply List.mem_map.2
    refine ⟨r, List.mem_filter.2 ⟨hr, decide_eq_true hsim⟩, ?_⟩
    cases p with
    | mk w t n pa i est mth =>
      simp only [Parse.mk.injEq]
      exact ⟨hw.symm, ht.symm, hn.symm, hpa.symm, hi.symm, he.symm, hmth.symm⟩

/-- Witness for claim C6: the combined parse of `exSubParse` with itself is a
Strategy B candidate (their signatures trivially agree). -/
theorem claim_C6_witness :
    ({ word := "w-w", tag := exTag, normal_form := "n-n", para_id := some 0,
       idx := some 0, estimate := exSubParse.estimate * (3/4),
       methods := [(PredictorId.hyphenatedWordsP, some "x")] } : Parse)
      ∈ hyphenStep2Candidates "x" [exSubParse] [exSubParse] := by
  refine (claim_C6 "x" [exSubParse] [exSubParse] _).2
    ⟨exSubParse, List.mem_singleton_self _, exSubParse, List.mem_singleton_self _,
      rfl, rfl, rfl, rfl, rfl, rfl, rfl, rfl⟩

/-! ## Claim C7 -/

/-- No particle of the fixed list ends with a particle appearing later in the
list, so a word equal to one particle matches no later particle. -/
theorem particles_no_tail_suffix :
    PARTICLES_AFTER_HYPHEN.Pairwise (fun a b => strEndsWith a b = false) := by
  decide

theorem particleLoop_nil_of_none (m : Morph) (word : String) (seen : SeenParses)
    (pts : List String) (h : ∀ pt ∈ pts, strEndsWith word pt = false) :
    particleLoop m word seen pts = [] := by
  induction pts with
  | nil => rfl
  | cons pt rest ih =>
    have h1 := h pt (List.mem_cons_self _ _)
    simp only [particleLoop, h1, Bool.false_eq_true, if_neg, not_false_iff]
    exact ih (fun pt' hpt' => h pt' (List.mem_cons_of_mem _ hpt'))

theorem eq_of_endsWith_dropEnd_nil {w pt : String}
    (h1 : strEndsWith w pt = true) (h2 : strDropEnd w (strLen pt) = "") : w = pt := by
  have hsuf : pt.data <:+ w.data := List.isSuffixOf_iff_suffix.1 h1
  have hlen1 : pt.data.length ≤ w.data.length := hsuf.length_le
  have h2' : w.data.take (w.data.length - pt.data.length) = [] :=
    congrArg String.data h2
  have hlen2 : w.data.length ≤ pt.data.length := by
    rcases List.take_eq_nil_iff.1 h2' with h | h
    · omega
    · simp [h]
  have hdata : pt.data = w.data :=
    hsuf.sublist.eq_of_length (Nat.le_antisymm hlen1 hlen2)
  exact congrArg String.mk hdata.symm

/-- The particle loop is the first-match rule: find the first particle the
word ends with; if the stem it leaves is empty the call returns nothing
(no later particle can match, by `particles_no_tail_suffix`), and otherwise
the candidates of exactly that particle are deduped and returned. -/
theorem particleLoop_eq_find (m : Morph) (word : String) (seen : SeenParses)
    (pts : List String) (hpw : pts.Pairwise (fun a b => strEndsWith a b = false)) :
    particleLoop m word seen pts =
      match pts.find? (fun pt => strEndsWith word pt) with
      | none => []
      | some pt =>
        if strDropEnd word (strLen pt) = "" then []
        else (addParsesIfNotSeen (particleCandidates m word pt) seen).1 := by
  induction pts with
  | nil => rfl
  | cons pt rest ih =>
    by_cases h1 : strEndsWith word pt = true
    · rw [List.find?_cons_of_pos _ h1]
      by_cases h2 : strDropEnd word (strLen pt) = ""
      · have hw : word = pt := eq_of_endsWith_dropEnd_nil h1 h2
        have hrest : ∀ pt' ∈ rest, strEndsWith word pt' = false := by
          intro pt' hpt'
          rw [hw]
          exact (List.pairwise_cons.1 hpw).1 pt' hpt'
        simp only [particleLoop, h1, if_pos, h2, if_pos]
        rw [particleLoop_nil_of_none m word seen rest hrest]
      · simp only [particleLoop, h1, if_pos, h2, if_neg, not_false_iff]
    · have h1' : strEndsWith word pt = false := Bool.eq_false_iff.2 h1
      rw [List.find?_cons_of_neg _ (by simp [h1'])]
      simp only [particleLoop, h1', Bool.false_eq_true, if_neg, not_false_iff]
      exact ih (List.pairwise_cons.1 hpw).2

/-- Claim C7: every parse returned by
`HyphenSeparatedParticlePredictor.parse` keeps the particle on both surface
and normal form and decays the stem parse's estimate by 0.9; at most one
particle is stripped — the first matching one in list order — and a word
whose only matching particle leaves an empty stem produces no result. -/
theorem claim_C7 (m : Morph) (word : String) (seen : SeenParses) :
    (∀ p ∈ hyphenParticleParse m word seen,
      ∃ pt ∈ PARTICLES_AFTER_HYPHEN,
        ∃ sub ∈ m.parse (strDropEnd word (strLen pt)),
          strEndsWith word pt = true ∧ strDropEnd word (strLen pt) ≠ "" ∧
          p.word = sub.word ++ pt ∧ p.normal_form = sub.normal_form ++ pt ∧
          p.estimate = sub.estimate * (9/10)) ∧
    (hyphenParticleParse m word seen =
      match PARTICLES_AFTER_HYPHEN.find? (fun pt => strEndsWith word pt) with
      | none => []
      | some pt =>
        if strDropEnd word (strLen pt) = "" then []
        else (addParsesIfNotSeen (particleCandidates m word pt) seen).1) := by
  have hchar := particleLoop_eq_find m word seen PARTICLES_AFTER_HYPHEN
    particles_no_tail_suffix
  refine ⟨?_, hchar⟩
  intro p hp
  rw [hyphenParticleParse, hchar] at hp
  rcases hfind : PARTICLES_AFTER_HYPHEN.find? (fun pt => strEndsWith word pt) with
    _ | pt
  · rw [hfind] at hp
    exact absurd hp (List.not_mem_nil p)
  · rw [hfind] at hp
    change p ∈ (if strDropEnd word (strLen pt) = "" then []
      else (addParsesIfNotSeen (particleCandidates m word pt) seen).1) at hp
    by_cases h2 : strDropEnd word (strLen pt) = ""
    · rw [if_pos h2] at hp
      exact absurd hp (List.not_mem_nil p)
    · rw [if_neg h2] at hp
      have hp' := mem_addParsesIfNotSeen hp
      rcases List.mem_map.1 hp' with ⟨sub, hsub, hpe⟩
      refine ⟨pt, List.mem_of_find?_eq_some hfind, sub, hsub,
        List.find?_some hfind, h2, ?_, ?_, ?_⟩ <;>
        (subst hpe; rfl)

/-- Witness for claim C7 at the concrete analyzer `exMorphW` and the word
`"кто-то"`. -/
theorem claim_C7_witness :
    (∀ p ∈ hyphenParticleParse exMorphW "кто-то" [],
      ∃ pt ∈ PARTICLES_AFTER_HYPHEN,
        ∃ sub ∈ exMorphW.parse (strDropEnd "кто-то" (strLen pt)),
          strEndsWith "кто-то" pt = true ∧ strDropEnd "кто-то" (strLen pt) ≠ "" ∧
          p.word = sub.word ++ pt ∧ p.normal_form = sub.normal_form ++ pt ∧
          p.estimate = sub.estimate * (9/10)) ∧
    (hyphenParticleParse exMorphW "кто-то" [] =
      match PARTICLES_AFTER_HYPHEN.find? (fun pt => strEndsWith "кто-то" pt) with
      | none => []
      | some pt =>
        if strDropEnd "кто-то" (strLen pt) = "" then []
        else (addParsesIfNotSeen (particleCandidates exMorphW "кто-то" pt) []).1) :=
  claim_C7 exMorphW "кто-то" []

/-! ## Claim C8 -/

/-- Claim C8: a shape classifier whose predicate accepts the word returns
exactly one parse — surface and normal form both the unchanged input word,
the classifier's fixed tag, no paradigm identifier, no form index, estimate
exactly 0.5, and a one-entry method chain naming the classifier with no
payload; when the predicate rejects, it returns the empty list.  Stated for
both `PunctuationPredictor` and `LatinPredictor`. -/
theorem claim_C8 (is_punct isLatin : String → Bool) (pnctTag latnTag : Tag)
    (word : String) (seen : SeenParses) :
    (is_punct word = true → punctuationParse is_punct pnctTag word seen =
      [{ word := word, tag := pnctTag, normal_form := word, para_id := none,
         idx := none, estimate := 1/2,
         methods := [(PredictorId.punctuationP, none)] }]) ∧
    (is_punct word = false → punctuationParse is_punct pnctTag word seen = []) ∧
    (isLatin word = true → latinParse isLatin latnTag word seen =
      [{ word := word, tag := latnTag, normal_form := word, para_id := none,
         idx := none, estimate := 1/2,
         methods := [(PredictorId.latinP, none)] }]) ∧
    (isLatin word = false → latinParse isLatin latnTag word seen = []) := by
  refine ⟨fun h => ?_, fun h => ?_, fun h => ?_, fun h => ?_⟩ <;>
    simp [punctuationParse, latinParse, shapeParse, h]

/-- Witness for claim C8 at an accepting punctuation predicate on `"..."`
and a rejecting Latin predicate on `"слово"`. -/
theorem claim_C8_witness :
    punctuationParse (fun _ => true) exTag "..." [] =
      [{ word := "...", tag := exTag, normal_form := "...", para_id := none,
         idx := none, estimate := 1/2,
         methods := [(PredictorId.punctuationP, none)] }] ∧
    latinParse (fun _ => false) exTag "слово" [] = [] :=
  ⟨(claim_C8 (fun _ => true) (fun _ => false) exTag exTag "..." []).1 rfl,
   (claim_C8 (fun _ => true) (fun _ => false) exTag exTag "слово" []).2.2.2 rfl⟩

/-! ## Claim C9 -/

/-- Claim C9: replaying the method chain of a parse produced by a shape
classifier through its `get_lexeme` yields exactly the singleton lexeme of
that parse's own form, whose surface form is the parse's surface form. -/
theorem claim_C9 (check : String → Bool) (t : Tag) (pid : PredictorId)
    (word : String) (seen : SeenParses) :
    ∀ p ∈ shapeParse check t pid word seen,
      shapeGetLexeme p p.methods = [p] ∧
        (shapeGetLexeme p p.methods).map Parse.word = [p.word] := by
  intro p _
  exact ⟨rfl, rfl⟩

/-- Witness for claim C9 at the parse returned by an accepting shape
classifier on `"."`. -/
theorem claim_C9_witness :
    shapeGetLexeme
        ({ word := ".", tag := exTag, normal_form := ".", para_id := none,
           idx := none, estimate := 1/2,
           methods := [(PredictorId.punctuationP, none)] } : Parse)
        [(PredictorId.punctuationP, none)] =
      [{ word := ".", tag := exTag, normal_form := ".", para_id := none,
         idx := none, estimate := 1/2,
         methods := [(PredictorId.punctuationP, none)] }] := by
  have h := claim_C9 (fun _ => true) exTag PredictorId.punctuationP "." []
    { word := ".", tag := exTag, normal_form := ".", para_id := none,
      idx := none, estimate := 1/2,
      methods := [(PredictorId.punctuationP, none)] }
    (by rw [shapeParse, if_pos rfl]; exact List.mem_singleton_self _)
  exact h.1

/-! ## Claim C10 -/

/-- Claim C10: the shape classifiers override `normalized` with the identity
— every form is returned unchanged — while the base predictor delegates to
the dictionary's `normalized`; the concrete dictionary `exDictC10` shows the
two genuinely differ. -/
theorem claim_C10 :
    (∀ f : Parse, shapeNormalized f = f) ∧
    (∀ (d : Dict) (f : Parse), baseNormalized d f = d.normalized f) ∧
    baseNormalized exDictC10 exSubParse ≠ shapeNormalized exSubParse := by
  refine ⟨fun f => rfl, fun d f => rfl, ?_⟩
  intro h
  have h' := congrArg Parse.estimate h
  norm_num [baseNormalized, shapeNormalized, exDictC10, exSubParse] at h'

end Pymorphy2
